import Mathlib

/-!
Shallow embedding of the DriftWise (SplitKit) balances/allocation engine.

Source: `src/2.split_kit_apple_clean_bill_splitter_web_prototype.jsx`
(functions `computeNetByUser`, `suggestSettlements`, `allocateProportional`,
`allocateEqual`, `allocatePercent`).

Modelling conventions:
* JavaScript numbers are modelled as exact rationals `ℚ`.
* A JavaScript value that can be `NaN` (arising from `undefined + x` when a
  record indexes a key that was never initialised, or from an out-of-range
  array read) is modelled as `Option ℚ`, with `none` standing for `NaN`.
* A JavaScript object used as a map (`Record<string, number>`) is modelled as
  an insertion-ordered association list `List (String × Option ℚ)`;
  assignment `o[k] = v` replaces the value in place when the key exists and
  appends the key otherwise, exactly like JS property assignment.
* `Math.round x` is `⌊x + 1/2⌋` (JS rounds half toward +∞),
  `Math.floor` is `Int.floor`, `Math.min` is `min`.
* The `while` loop of `suggestSettlements` is written with explicit fuel;
  the fuel `debtors.length + creditors.length` is proved sufficient.
-/

namespace SplitKit

/-- `Math.round` on a finite JS number: round half toward `+∞`. -/
def jsRound (q : ℚ) : ℤ := ⌊q + 1/2⌋

/-- `Math.round (q * 100) / 100` — the cent-rounding idiom used by the source. -/
def roundCents (q : ℚ) : ℚ := (jsRound (q * 100) : ℚ) / 100

/-- A rational is a whole number of cents (multiple of `0.01`). -/
def isCent (q : ℚ) : Prop := (q * 100).den = 1

/-- A JS object of numbers: insertion-ordered association list, `none` = NaN. -/
abbrev Net := List (String × Option ℚ)

/-- Reading `o[k]`: `none` when the key is absent (JS `undefined`). -/
def getVal : Net → String → Option (Option ℚ)
  | [], _ => none
  | p :: ps, k => if p.1 = k then some p.2 else getVal ps k

/-- JS property assignment `o[k] = v`: replace in place, else append. -/
def objSet (net : Net) (k : String) (v : Option ℚ) : Net :=
  if k ∈ net.map Prod.fst then
    net.map (fun p => if p.1 = k then (p.1, v) else p)
  else
    net ++ [(k, v)]

/-- The value written by `o[k] += a`: `undefined + a` and `NaN + a` are NaN. -/
def jsAdd : Option (Option ℚ) → ℚ → Option ℚ
  | some (some v), a => some (v + a)
  | _, _ => none

/-- JS `o[k] += a`. -/
def objAdd (net : Net) (k : String) (a : ℚ) : Net :=
  objSet net k (jsAdd (getVal net k) a)

/-- Sum of all values of the object; NaN poisons the sum. -/
def sumVals : Net → Option ℚ
  | [] => some 0
  | p :: ps =>
    match p.2, sumVals ps with
    | some v, some s => some (v + s)
    | _, _ => none

-- Data model (fields as in the source' TypeScript interfaces).

structure User where
  id : String
  name : String
deriving DecidableEq, Repr

structure Group where
  id : String
  name : String
  currency : String
  members : List User
deriving DecidableEq, Repr

structure ExpenseShare where
  userId : String
  amount : ℚ
deriving DecidableEq, Repr

structure Expense where
  id : String
  groupId : String
  title : String
  amount : ℚ
  payerId : String
  date : String
  note : Option String := none
  shares : List ExpenseShare
deriving DecidableEq, Repr

structure Settlement where
  id : String
  groupId : String
  fromUser : String
  toUser : String
  amount : ℚ
  date : String
  method : Option String := none
deriving DecidableEq, Repr

/-- A suggested transfer `{from, to, amount}` (`from` is a Lean keyword, so the
fields are named `tfrom`/`tto`). -/
structure Transfer where
  tfrom : String
  tto : String
  amount : ℚ
deriving DecidableEq, Repr

/-- The identifiers of a group's member list. -/
def memberIds (g : Group) : List String := g.members.map User.id

-- Balances engine.

/-- `const net = {}; group.members.forEach(m => net[m.id] = 0);` -/
def initNet (g : Group) : Net :=
  g.members.foldl (fun net m => objSet net m.id (some 0)) []

/-- One expense: `net[e.payerId] += e.amount; for (s of e.shares) net[s.userId] -= s.amount;` -/
def applyExpense (net : Net) (e : Expense) : Net :=
  e.shares.foldl (fun n s => objAdd n s.userId (-s.amount))
    (objAdd net e.payerId e.amount)

/-- One settlement: `net[s.fromUser] += s.amount; net[s.toUser] -= s.amount;` -/
def applySettlement (net : Net) (s : Settlement) : Net :=
  objAdd (objAdd net s.fromUser s.amount) s.toUser (-s.amount)

/-- The final pass `for (k of Object.keys(net)) net[k] = Math.round(net[k]*100)/100`. -/
def roundNet (net : Net) : Net :=
  net.map (fun p => (p.1, p.2.map roundCents))

/-- The net object just before the rounding pass. -/
def preNet (g : Group) (expenses : List Expense) (settlements : List Settlement) : Net :=
  (settlements.filter (fun s => decide (s.groupId = g.id))).foldl applySettlement
    ((expenses.filter (fun e => decide (e.groupId = g.id))).foldl applyExpense (initNet g))

/-- `computeNetByUser` from the source. -/
def computeNetByUser (g : Group) (expenses : List Expense) (settlements : List Settlement) : Net :=
  roundNet (preNet g expenses settlements)

-- Settlement suggestion.

/-- `if (v < -0.009) debtors.push({id, amt: -v})` over `Object.entries(net)`;
`NaN < -0.009` is false, so NaN entries are skipped. -/
def dParts (net : Net) : List (String × ℚ) :=
  net.filterMap fun p =>
    match p.2 with
    | some v => if v < -(9/1000) then some (p.1, -v) else none
    | none => none

/-- `if (v > 0.009) creditors.push({id, amt: v})`; NaN entries are skipped. -/
def cParts (net : Net) : List (String × ℚ) :=
  net.filterMap fun p =>
    match p.2 with
    | some v => if (9/1000) < v then some (p.1, v) else none
    | none => none

/-- The debtor list built by `suggestSettlements`. -/
def debtorsOf (g : Group) (es : List Expense) (ss : List Settlement) : List (String × ℚ) :=
  dParts (computeNetByUser g es ss)

/-- The creditor list built by `suggestSettlements`. -/
def creditorsOf (g : Group) (es : List Expense) (ss : List Settlement) : List (String × ℚ) :=
  cParts (computeNetByUser g es ss)

/-- `xs.sort((a,b) => b.amt - a.amt)`: stable descending sort by amount. -/
def sortByAmtDesc (l : List (String × ℚ)) : List (String × ℚ) :=
  List.insertionSort (fun a b => b.2 ≤ a.2) l

/-- The `while (i<debtors.length && j<creditors.length)` loop, with fuel.
Each iteration pays `min(d.amt, c.amt)`, records the cent-rounded amount and
drops every party whose remaining amount falls below `0.01`. -/
def settleLoop : ℕ → List (String × ℚ) → List (String × ℚ) → List Transfer
  | 0, _, _ => []
  | _ + 1, [], _ => []
  | _ + 1, _ :: _, [] => []
  | fuel + 1, d :: ds, c :: cs =>
    let pay := min d.2 c.2
    let t : Transfer := ⟨d.1, c.1, roundCents pay⟩
    let damt := d.2 - pay
    let camt := c.2 - pay
    let ds2 := if damt < 1/100 then ds else (d.1, damt) :: ds
    let cs2 := if camt < 1/100 then cs else (c.1, camt) :: cs
    t :: settleLoop fuel ds2 cs2

/-- `suggestSettlements` from the source. -/
def suggestSettlements (g : Group) (es : List Expense) (ss : List Settlement) : List Transfer :=
  settleLoop
    ((sortByAmtDesc (debtorsOf g es ss)).length + (sortByAmtDesc (creditorsOf g es ss)).length)
    (sortByAmtDesc (debtorsOf g es ss)) (sortByAmtDesc (creditorsOf g es ss))

-- Allocation engine.

/-- Indexing helper: `(i, xs[i])` pairs, starting at `n`. -/
def withIdx {α : Type} : ℕ → List α → List (ℕ × α)
  | _, [] => []
  | n, x :: xs => (n, x) :: withIdx (n + 1) xs

/-- `raw = weights.map(w => (totalCents * w) / sumW)`. -/
def rawShares (ws : List ℚ) (C : ℤ) : List ℚ :=
  ws.map fun w => (C : ℚ) * w / ws.sum

/-- The leftover-distribution loop
`for (k = 0; k < fracIdx.length && remainder > 0; k++) { base[fracIdx[k].i] += 1; remainder--; }`. -/
def distribute : List (ℕ × ℚ) → ℤ → List ℤ → List ℤ
  | [], _, b => b
  | p :: rest, r, b =>
    if 0 < r then distribute rest (r - 1) (b.set p.1 (b.getD p.1 0 + 1)) else b

/-- `fracIdx = raw.map((v,i) => ({i, frac: v - Math.floor v})).sort((a,b) => b.frac - a.frac)`. -/
def fracIdxOf (raw : List ℚ) : List (ℕ × ℚ) :=
  List.insertionSort (fun a b => b.2 ≤ a.2) ((withIdx 0 raw).map fun p => (p.1, p.2 - ⌊p.2⌋))

/-- The ordered `(id, value)` pairs that `allocateProportional` writes into its
output object: the all-zero fallback when `sumW ≤ 0 || totalCents === 0`,
otherwise `out[id] = base[idx] / 100` (an out-of-range index reads
`undefined` and stores NaN). -/
def allocPairs (mids : List String) (ws : List ℚ) (t : ℚ) : List (String × Option ℚ) :=
  let C := jsRound (t * 100)
  if ws.sum ≤ 0 ∨ C = 0 then
    mids.map fun id => (id, some 0)
  else
    let raw := rawShares ws C
    let base := raw.map fun v => ⌊v⌋
    let remainder := C - base.sum
    let base2 := distribute (fracIdxOf raw) remainder base
    (withIdx 0 mids).map fun p => (p.2, (base2.get? p.1).map fun b => (b : ℚ) / 100)

/-- Building the output object (`Object.fromEntries` / `forEach` assignment:
last occurrence of a key wins, insertion order is first occurrence). -/
def objFromEntries (l : List (String × Option ℚ)) : Net :=
  l.foldl (fun net p => objSet net p.1 p.2) []

/-- `allocateProportional` from the source. -/
def allocateProportional (mids : List String) (ws : List ℚ) (t : ℚ) : Net :=
  objFromEntries (allocPairs mids ws t)

/-- `allocateEqual`: proportional with all weights 1. -/
def allocateEqual (mids : List String) (t : ℚ) : Net :=
  allocateProportional mids (mids.map fun _ => 1) t

/-- `allocatePercent`: percentages used directly as weights. -/
def allocatePercent (mids : List String) (perc : List ℚ) (t : ℚ) : Net :=
  allocateProportional mids perc t

/-- Every value of the object is a whole number of cents (and not NaN). -/
def AllCentSome (net : Net) : Prop := ∀ p ∈ net, ∃ v, p.2 = some v ∧ isCent v

/-- Keys are exactly the group's member ids, no duplicates, all values whole cents. -/
def NetOk (g : Group) (net : Net) : Prop :=
  (net.map Prod.fst).Nodup ∧ (∀ k, k ∈ net.map Prod.fst ↔ k ∈ memberIds g) ∧ AllCentSome net

/-- All member references of matching records exist in the group's member list. -/
def ValidRefs (g : Group) (es : List Expense) (ss : List Settlement) : Prop :=
  (∀ e ∈ es, e.groupId = g.id →
    e.payerId ∈ memberIds g ∧ ∀ s ∈ e.shares, s.userId ∈ memberIds g) ∧
  (∀ s ∈ ss, s.groupId = g.id → s.fromUser ∈ memberIds g ∧ s.toUser ∈ memberIds g)

/-- Each matching expense's shares sum to its amount. -/
def SharesOk (g : Group) (es : List Expense) : Prop :=
  ∀ e ∈ es, e.groupId = g.id → (e.shares.map ExpenseShare.amount).sum = e.amount

/-- All matching record amounts are whole numbers of cents. -/
def CentAmts (g : Group) (es : List Expense) (ss : List Settlement) : Prop :=
  (∀ e ∈ es, e.groupId = g.id → isCent e.amount ∧ ∀ s ∈ e.shares, isCent s.amount) ∧
  (∀ s ∈ ss, s.groupId = g.id → isCent s.amount)

/-- The matching loop exactly as the specification text describes it: the emitted
transfer amount is the cent-rounded minimum of the two remaining amounts and both
remaining amounts are decremented by that (rounded) transfer amount. -/
def settleLoopDescribed : ℕ → List (String × ℚ) → List (String × ℚ) → List Transfer
  | 0, _, _ => []
  | _ + 1, [], _ => []
  | _ + 1, _ :: _, [] => []
  | fuel + 1, d :: ds, c :: cs =>
    let pay := roundCents (min d.2 c.2)
    let t : Transfer := ⟨d.1, c.1, pay⟩
    let damt := d.2 - pay
    let camt := c.2 - pay
    let ds2 := if damt < 1/100 then ds else (d.1, damt) :: ds
    let cs2 := if camt < 1/100 then cs else (c.1, camt) :: cs
    t :: settleLoopDescribed fuel ds2 cs2

/-- The settlement-suggestion operation as described by the specification text,
to be compared with the source-derived `suggestSettlements`. -/
def suggestSettlementsDescribed (g : Group) (es : List Expense) (ss : List Settlement) :
    List Transfer :=
  settleLoopDescribed
    ((sortByAmtDesc (debtorsOf g es ss)).length + (sortByAmtDesc (creditorsOf g es ss)).length)
    (sortByAmtDesc (debtorsOf g es ss)) (sortByAmtDesc (creditorsOf g es ss))

/-- Total amount carried by `id` in a debtor/creditor list. -/
def amtFor (id : String) (l : List (String × ℚ)) : ℚ :=
  ((l.filter (fun p => decide (p.1 = id))).map Prod.snd).sum

/-- Expense processing with operations on unknown member ids removed
(the reference-validated behaviour described by the specification). -/
def applyExpenseChecked (ids : List String) (net : Net) (e : Expense) : Net :=
  (e.shares.filter (fun s => decide (s.userId ∈ ids))).foldl
    (fun n s => objAdd n s.userId (-s.amount))
    (if e.payerId ∈ ids then objAdd net e.payerId e.amount else net)

/-- Settlement processing with operations on unknown member ids removed. -/
def applySettlementChecked (ids : List String) (net : Net) (s : Settlement) : Net :=
  if s.toUser ∈ ids then
    objAdd (if s.fromUser ∈ ids then objAdd net s.fromUser s.amount else net)
      s.toUser (-s.amount)
  else if s.fromUser ∈ ids then objAdd net s.fromUser s.amount else net

/-- `computeNetByUser` with every unknown-member reference removed: the comparison
point for the claim that unknown references are silently ignored. -/
def computeNetByUserChecked (g : Group) (es : List Expense) (ss : List Settlement) : Net :=
  roundNet ((ss.filter (fun s => decide (s.groupId = g.id))).foldl
    (applySettlementChecked (memberIds g))
    ((es.filter (fun e => decide (e.groupId = g.id))).foldl
      (applyExpenseChecked (memberIds g)) (initNet g)))

/-- Simulation between the raw net object and the reference-checked one: they agree
on every member id, and every entry of the raw object at a non-member key is NaN. -/
def SimRel (ids : List String) (netR netC : Net) : Prop :=
  (∀ id ∈ ids, getVal netR id = getVal netC id) ∧ (∀ p ∈ netR, p.1 ∉ ids → p.2 = none)

/-- Two-member example group. -/
def gAB : Group :=
  { id := "g", name := "G", currency := "USD", members := [⟨"A", "Alice"⟩, ⟨"B", "Bob"⟩] }

/-- An expense of 100 paid by A, split 50/50 between A and B. -/
def eSplit : Expense :=
  { id := "e1", groupId := "g", title := "Dinner", amount := 100, payerId := "A", date := "",
    shares := [⟨"A", 50⟩, ⟨"B", 50⟩] }

/-- B pays A 50. -/
def sRepay : Settlement :=
  { id := "s1", groupId := "g", fromUser := "B", toUser := "A", amount := 50, date := "" }

/-- A settlement whose source member "X" is not in the group. -/
def sUnknown : Settlement :=
  { id := "s2", groupId := "g", fromUser := "X", toUser := "A", amount := 5, date := "" }

/-- An expense whose shares (30) do not sum to its amount (100). -/
def eBadShare : Expense :=
  { id := "e2", groupId := "g", title := "t", amount := 100, payerId := "A", date := "",
    shares := [⟨"B", 30⟩] }

/-- An expense paid by an identifier "X" that is not in the group. -/
def eUnknownPayer : Expense :=
  { id := "e3", groupId := "g", title := "t", amount := 100, payerId := "X", date := "",
    shares := [⟨"A", 100⟩] }

/-- An expense with a half-cent amount (0.005). -/
def eHalfCent : Expense :=
  { id := "e4", groupId := "g", title := "t", amount := 1/200, payerId := "A", date := "",
    shares := [⟨"B", 1/200⟩] }

instance instIsTotalSndDesc {α : Type} : IsTotal (α × ℚ) (fun a b => b.2 ≤ a.2) :=
  ⟨fun a b => le_total b.2 a.2⟩

instance instIsTransSndDesc {α : Type} : IsTrans (α × ℚ) (fun a b => b.2 ≤ a.2) :=
  ⟨fun _ _ _ hab hbc => le_trans hbc hab⟩

/-! ### Cent arithmetic -/

theorem isCent_iff {q : ℚ} : isCent q ↔ ∃ z : ℤ, q = (z : ℚ) / 100 := by
  constructor
  · intro h
    refine ⟨(q * 100).num, ?_⟩
    have h1 : ((q * 100).num : ℚ) = q * 100 := (Rat.den_eq_one_iff _).mp h
    rw [h1]
    field_simp
  · rintro ⟨z, rfl⟩
    have h1 : (z : ℚ) / 100 * 100 = (z : ℚ) := by field_simp
    unfold isCent
    rw [h1, Rat.den_intCast]

theorem isCent_zero : isCent 0 := by
  rw [isCent_iff]
  exact ⟨0, by norm_num⟩

theorem isCent_add {a b : ℚ} (ha : isCent a) (hb : isCent b) : isCent (a + b) := by
  rw [isCent_iff] at *
  obtain ⟨x, rfl⟩ := ha
  obtain ⟨y, rfl⟩ := hb
  exact ⟨x + y, by push_cast; ring⟩

theorem isCent_neg {a : ℚ} (ha : isCent a) : isCent (-a) := by
  rw [isCent_iff] at *
  obtain ⟨x, rfl⟩ := ha
  exact ⟨-x, by push_cast; ring⟩

theorem isCent_sub {a b : ℚ} (ha : isCent a) (hb : isCent b) : isCent (a - b) := by
  rw [sub_eq_add_neg]
  exact isCent_add ha (isCent_neg hb)

theorem isCent_min {a b : ℚ} (ha : isCent a) (hb : isCent b) : isCent (min a b) := by
  rcases le_total a b with h | h
  · rw [min_eq_left h]; exact ha
  · rw [min_eq_right h]; exact hb

theorem roundCents_isCent (q : ℚ) : isCent (roundCents q) := by
  rw [isCent_iff]
  exact ⟨jsRound (q * 100), rfl⟩

theorem jsRound_intCast (z : ℤ) : jsRound (z : ℚ) = z := by
  unfold jsRound
  rw [Int.floor_int_add]
  norm_num

theorem roundCents_eq_self {q : ℚ} (h : isCent q) : roundCents q = q := by
  rw [isCent_iff] at h
  obtain ⟨z, rfl⟩ := h
  unfold roundCents
  have h1 : (z : ℚ) / 100 * 100 = (z : ℚ) := by field_simp
  rw [h1, jsRound_intCast]

/-- A cent amount below `-0.009` is at most `-0.01`. -/
theorem isCent_le_of_lt_neg {q : ℚ} (h : isCent q) (h0 : q < -(9/1000)) : q ≤ -(1/100) := by
  rw [isCent_iff] at h
  obtain ⟨z, rfl⟩ := h
  have hz : z ≤ -1 := by
    by_contra hge
    push_neg at hge
    have : (0 : ℚ) ≤ (z : ℚ) := by exact_mod_cast (by omega : (0:ℤ) ≤ z)
    nlinarith
  have h2 : (z : ℚ) ≤ ((-1 : ℤ) : ℚ) := Int.cast_le.mpr hz
  push_cast at h2
  nlinarith

/-- A cent amount above `0.009` is at least `0.01`. -/
theorem isCent_ge_of_gt {q : ℚ} (h : isCent q) (h0 : (9/1000) < q) : 1/100 ≤ q := by
  rw [isCent_iff] at h
  obtain ⟨z, rfl⟩ := h
  have hz : 1 ≤ z := by
    by_contra hge
    push_neg at hge
    have : (z : ℚ) ≤ 0 := by exact_mod_cast (by omega : z ≤ 0)
    nlinarith
  have : (1 : ℚ) ≤ (z : ℚ) := by exact_mod_cast hz
  nlinarith

theorem getVal_cons (p : String × Option ℚ) (ps : Net) (k : String) :
    getVal (p :: ps) k = if p.1 = k then some p.2 else getVal ps k := rfl

theorem getVal_map_replace_ne {k id : String} {v : Option ℚ} (net : Net) (h : id ≠ k) :
    getVal (net.map fun p => if p.1 = k then (p.1, v) else p) id = getVal net id := by
  induction net with
  | nil => rfl
  | cons p ps ih =>
    rw [List.map_cons, getVal_cons, getVal_cons]
    by_cases hp : p.1 = k
    · have hpid : ¬ p.1 = id := by rw [hp]; exact fun hc => h hc.symm
      rw [if_pos hp]
      dsimp only
      rw [if_neg hpid, if_neg hpid]
      exact ih
    · rw [if_neg hp]
      by_cases hid : p.1 = id
      · rw [if_pos hid, if_pos hid]
      · rw [if_neg hid, if_neg hid]
        exact ih

theorem getVal_map_replace_self {k : String} {v : Option ℚ} (net : Net)
    (hmem : k ∈ net.map Prod.fst) :
    getVal (net.map fun p => if p.1 = k then (p.1, v) else p) k = some v := by
  induction net with
  | nil => simp at hmem
  | cons p ps ih =>
    rw [List.map_cons, getVal_cons]
    by_cases hp : p.1 = k
    · rw [if_pos hp]
      dsimp only
      rw [if_pos hp]
    · rw [if_neg hp, if_neg hp]
      refine ih ?_
      rw [List.map_cons, List.mem_cons] at hmem
      rcases hmem with hmem | hmem
      · exact absurd hmem.symm hp
      · exact hmem

theorem getVal_append_single {k id : String} {v : Option ℚ} (net : Net)
    (hk : k ∉ net.map Prod.fst) :
    getVal (net ++ [(k, v)]) id = if id = k then some v else getVal net id := by
  induction net with
  | nil =>
    rw [List.nil_append, getVal_cons]
    dsimp only
    by_cases h : id = k
    · rw [if_pos (h ▸ rfl), if_pos h]
    · rw [if_neg (fun hc => h hc.symm), if_neg h]
  | cons p ps ih =>
    rw [List.cons_append, getVal_cons, getVal_cons]
    by_cases hid : p.1 = id
    · rw [if_pos hid]
      have hidk : ¬ id = k := by
        intro hc
        exact hk (List.mem_map.mpr ⟨p, List.mem_cons_self p ps, hid.trans hc⟩)
      rw [if_neg hidk, if_pos hid]
    · rw [if_neg hid, if_neg hid]
      exact ih (fun hc => hk (List.mem_cons_of_mem _ hc))

theorem getVal_objSet (net : Net) (k : String) (v : Option ℚ) (id : String) :
    getVal (objSet net k v) id = if id = k then some v else getVal net id := by
  unfold objSet
  by_cases hk : k ∈ net.map Prod.fst
  · rw [if_pos hk]
    by_cases h : id = k
    · subst h
      rw [if_pos rfl, getVal_map_replace_self net hk]
    · rw [if_neg h, getVal_map_replace_ne net h]
  · rw [if_neg hk, getVal_append_single net hk]

theorem map_fst_objSet (net : Net) (k : String) (v : Option ℚ) :
    (objSet net k v).map Prod.fst =
      if k ∈ net.map Prod.fst then net.map Prod.fst else net.map Prod.fst ++ [k] := by
  unfold objSet
  by_cases hk : k ∈ net.map Prod.fst
  · rw [if_pos hk, if_pos hk, List.map_map]
    refine List.map_congr_left ?_
    intro p _
    by_cases hp : p.1 = k
    · simp [hp]
    · simp [hp]
  · rw [if_neg hk, if_neg hk]
    simp

theorem mem_keys_objSet {k' : String} (net : Net) (k : String) (v : Option ℚ) :
    k' ∈ (objSet net k v).map Prod.fst ↔ k' ∈ net.map Prod.fst ∨ k' = k := by
  rw [map_fst_objSet]
  by_cases hk : k ∈ net.map Prod.fst
  · rw [if_pos hk]
    constructor
    · exact Or.inl
    · rintro (h | rfl)
      · exact h
      · exact hk
  · rw [if_neg hk]
    simp

theorem nodup_keys_objSet {net : Net} (h : (net.map Prod.fst).Nodup) (k : String)
    (v : Option ℚ) : ((objSet net k v).map Prod.fst).Nodup := by
  rw [map_fst_objSet]
  by_cases hk : k ∈ net.map Prod.fst
  · rw [if_pos hk]; exact h
  · rw [if_neg hk]
    rw [← List.concat_eq_append]
    exact List.Nodup.concat hk h

theorem forall_objSet {P : Option ℚ → Prop} {net : Net} {v : Option ℚ}
    (hnet : ∀ p ∈ net, P p.2) (hv : P v) (k : String) :
    ∀ p ∈ objSet net k v, P p.2 := by
  unfold objSet
  by_cases hk : k ∈ net.map Prod.fst
  · rw [if_pos hk]
    intro p hp
    rcases List.mem_map.mp hp with ⟨q, hq, rfl⟩
    by_cases hqk : q.1 = k
    · rw [if_pos hqk]; exact hv
    · rw [if_neg hqk]; exact hnet q hq
  · rw [if_neg hk]
    intro p hp
    rcases List.mem_append.mp hp with h | h
    · exact hnet p h
    · rw [List.mem_singleton.mp h]; exact hv

theorem getVal_objAdd_self (net : Net) (k : String) (a : ℚ) :
    getVal (objAdd net k a) k = some (jsAdd (getVal net k) a) := by
  unfold objAdd
  rw [getVal_objSet, if_pos rfl]

theorem getVal_objAdd_ne {id k : String} (net : Net) (a : ℚ) (h : id ≠ k) :
    getVal (objAdd net k a) id = getVal net id := by
  unfold objAdd
  rw [getVal_objSet, if_neg h]

theorem mem_keys_objAdd {k' : String} (net : Net) (k : String) (a : ℚ) :
    k' ∈ (objAdd net k a).map Prod.fst ↔ k' ∈ net.map Prod.fst ∨ k' = k :=
  mem_keys_objSet net k _

theorem getVal_none_iff (net : Net) (k : String) :
    getVal net k = none ↔ k ∉ net.map Prod.fst := by
  induction net with
  | nil => simp [getVal]
  | cons p ps ih =>
    rw [getVal_cons, List.map_cons, List.mem_cons]
    by_cases h : p.1 = k
    · simp [h]
    · rw [if_neg h, ih]
      constructor
      · intro hk hc
        rcases hc with hc | hc
        · exact h hc.symm
        · exact hk hc
      · intro hk hc
        exact hk (Or.inr hc)

theorem getVal_isSome {net : Net} {k : String} (h : k ∈ net.map Prod.fst) :
    ∃ o, getVal net k = some o := by
  cases hg : getVal net k with
  | none => exact absurd h ((getVal_none_iff net k).mp hg)
  | some o => exact ⟨o, rfl⟩

theorem getVal_mem {net : Net} {k : String} {o : Option ℚ} (h : getVal net k = some o) :
    (k, o) ∈ net := by
  induction net with
  | nil => simp [getVal] at h
  | cons p ps ih =>
    rw [getVal_cons] at h
    by_cases hp : p.1 = k
    · rw [if_pos hp] at h
      have : p = (k, o) := Prod.ext hp (Option.some_injective _ h)
      rw [← this]
      exact List.mem_cons_self p ps
    · rw [if_neg hp] at h
      exact List.mem_cons_of_mem _ (ih h)

theorem replace_map_eq_self {k : String} {v : Option ℚ} {ps : Net}
    (hk : k ∉ ps.map Prod.fst) :
    (ps.map fun p => if p.1 = k then (p.1, v) else p) = ps := by
  induction ps with
  | nil => rfl
  | cons q qs ih =>
    have hk1 : ¬ q.1 = k := by
      intro hc
      exact hk (by rw [List.map_cons]; exact List.mem_cons.mpr (Or.inl hc.symm))
    have hk2 : k ∉ qs.map Prod.fst := by
      intro hc
      exact hk (by rw [List.map_cons]; exact List.mem_cons.mpr (Or.inr hc))
    rw [List.map_cons, if_neg hk1, ih hk2]

theorem objSet_cons_ne {p : String × Option ℚ} {k : String} (ps : Net) (v : Option ℚ)
    (hp : p.1 ≠ k) : objSet (p :: ps) k v = p :: objSet ps k v := by
  unfold objSet
  by_cases hk : k ∈ ps.map Prod.fst
  · have hk2 : k ∈ (p :: ps).map Prod.fst := by
      rw [List.map_cons]
      exact List.mem_cons_of_mem _ hk
    rw [if_pos hk2, if_pos hk, List.map_cons, if_neg hp]
  · have hk2 : k ∉ (p :: ps).map Prod.fst := by
      rw [List.map_cons, List.mem_cons]
      rintro (hc | hc)
      · exact hp hc.symm
      · exact hk hc
    rw [if_neg hk2, if_neg hk, List.cons_append]

theorem objAdd_cons_ne {p : String × Option ℚ} {k : String} (ps : Net) (a : ℚ)
    (hp : p.1 ≠ k) : objAdd (p :: ps) k a = p :: objAdd ps k a := by
  unfold objAdd
  rw [getVal_cons, if_neg hp, objSet_cons_ne ps _ hp]

theorem sumVals_cons_some {p : String × Option ℚ} {v : ℚ} (ps : Net) (h : p.2 = some v) :
    sumVals (p :: ps) = (sumVals ps).map (fun s => v + s) := by
  simp only [sumVals, h]
  cases sumVals ps with
  | none => rfl
  | some s => rfl

theorem sumVals_cons_none {p : String × Option ℚ} (ps : Net) (h : p.2 = none) :
    sumVals (p :: ps) = none := by
  simp only [sumVals, h]

theorem sumVals_zeros {net : Net} (h : ∀ p ∈ net, p.2 = some 0) : sumVals net = some 0 := by
  induction net with
  | nil => rfl
  | cons p ps ih =>
    rw [sumVals_cons_some ps (h p (List.mem_cons_self p ps)),
      ih (fun q hq => h q (List.mem_cons_of_mem _ hq))]
    simp

theorem sumVals_objAdd {net : Net} {k : String} {v a : ℚ}
    (hnd : (net.map Prod.fst).Nodup) (hget : getVal net k = some (some v)) :
    sumVals (objAdd net k a) = (sumVals net).map (fun s => s + a) := by
  induction net with
  | nil => simp [getVal] at hget
  | cons p ps ih =>
    rw [List.map_cons, List.nodup_cons] at hnd
    by_cases hp : p.1 = k
    · rw [getVal_cons, if_pos hp] at hget
      have hpv : p.2 = some v := Option.some_injective _ hget
      have hknotin : k ∉ ps.map Prod.fst := hp ▸ hnd.1
      have hobj : objAdd (p :: ps) k a = (p.1, some (v + a)) :: ps := by
        unfold objAdd objSet
        rw [getVal_cons, if_pos hp, hpv]
        have hk2 : k ∈ (p :: ps).map Prod.fst := by
          rw [List.map_cons]
          exact List.mem_cons.mpr (Or.inl hp.symm)
        rw [if_pos hk2, List.map_cons, if_pos hp, replace_map_eq_self hknotin]
        rfl
      rw [hobj, sumVals_cons_some ps (show ((p.1 : String), some (v+a)).2 = some (v+a) from rfl),
        sumVals_cons_some ps hpv]
      cases sumVals ps with
      | none => rfl
      | some s =>
        show some (v + a + s) = some (v + s + a)
        rw [Option.some_inj]
        ring
    · rw [getVal_cons, if_neg hp] at hget
      rw [objAdd_cons_ne ps a hp]
      cases hpv : p.2 with
      | none =>
        rw [sumVals_cons_none _ hpv, sumVals_cons_none _ hpv]
        rfl
      | some w =>
        rw [sumVals_cons_some _ hpv, sumVals_cons_some _ hpv, ih hnd.2 hget]
        cases sumVals ps with
        | none => rfl
        | some s =>
          show some (w + (s + a)) = some (w + s + a)
          rw [Option.some_inj]
          ring

theorem allCent_objAdd {net : Net} {k : String} {a : ℚ}
    (h : AllCentSome net) (hk : k ∈ net.map Prod.fst) (ha : isCent a) :
    AllCentSome (objAdd net k a) := by
  obtain ⟨o, ho⟩ := getVal_isSome hk
  obtain ⟨v, hv, hcv⟩ := h (k, o) (getVal_mem ho)
  dsimp only at hv
  unfold AllCentSome objAdd
  have hnet : ∀ p ∈ net, (fun o => ∃ w, o = some w ∧ isCent w) p.2 := h
  refine forall_objSet (P := fun o => ∃ w, o = some w ∧ isCent w) hnet ?_ k
  rw [ho, hv]
  exact ⟨v + a, rfl, isCent_add hcv ha⟩

theorem step_add {g : Group} {net : Net} {k : String} {a : ℚ}
    (hok : NetOk g net) (hk : k ∈ memberIds g) (ha : isCent a) :
    NetOk g (objAdd net k a) ∧ sumVals (objAdd net k a) = (sumVals net).map (fun s => s + a) := by
  obtain ⟨hnd, hiff, hcent⟩ := hok
  have hkin : k ∈ net.map Prod.fst := (hiff k).mpr hk
  obtain ⟨o, ho⟩ := getVal_isSome hkin
  obtain ⟨v, hv, _⟩ := hcent (k, o) (getVal_mem ho)
  dsimp only at hv
  have hgetv : getVal net k = some (some v) := by rw [ho, hv]
  have hkeys : (objAdd net k a).map Prod.fst = net.map Prod.fst := by
    unfold objAdd
    rw [map_fst_objSet, if_pos hkin]
  refine ⟨⟨?_, ?_, ?_⟩, ?_⟩
  · rw [hkeys]; exact hnd
  · intro k'; rw [hkeys]; exact hiff k'
  · exact allCent_objAdd hcent hkin ha
  · exact sumVals_objAdd hnd hgetv

theorem foldl_objSet_zero (ms : List User) (acc : Net)
    (hnd : (acc.map Prod.fst).Nodup) (hz : ∀ p ∈ acc, p.2 = some 0) :
    ((ms.foldl (fun net m => objSet net m.id (some 0)) acc).map Prod.fst).Nodup ∧
    (∀ p ∈ ms.foldl (fun net m => objSet net m.id (some 0)) acc, p.2 = some 0) ∧
    (∀ k, k ∈ (ms.foldl (fun net m => objSet net m.id (some 0)) acc).map Prod.fst ↔
      k ∈ acc.map Prod.fst ∨ k ∈ ms.map User.id) := by
  induction ms generalizing acc with
  | nil => exact ⟨hnd, hz, fun k => by simp⟩
  | cons m ms ih =>
    rw [List.foldl_cons]
    have hnd2 := nodup_keys_objSet hnd m.id (some 0)
    have hz2 : ∀ p ∈ objSet acc m.id (some 0), p.2 = some 0 :=
      forall_objSet (P := fun o => o = some 0) hz rfl m.id
    obtain ⟨h1, h2, h3⟩ := ih _ hnd2 hz2
    refine ⟨h1, h2, ?_⟩
    intro k
    rw [h3 k, mem_keys_objSet, List.map_cons, List.mem_cons]
    tauto

theorem initNet_ok (g : Group) : NetOk g (initNet g) ∧ sumVals (initNet g) = some 0 := by
  unfold initNet
  obtain ⟨h1, h2, h3⟩ := foldl_objSet_zero g.members [] (by simp) (by simp)
  refine ⟨⟨h1, ?_, ?_⟩, sumVals_zeros h2⟩
  · intro k
    rw [h3 k]
    simp [memberIds]
  · intro p hp
    exact ⟨0, h2 p hp, isCent_zero⟩

theorem shares_fold_ok {g : Group} {net : Net} (shs : List ExpenseShare)
    (hok : NetOk g net)
    (hsh : ∀ s ∈ shs, s.userId ∈ memberIds g ∧ isCent s.amount) :
    NetOk g (shs.foldl (fun n s => objAdd n s.userId (-s.amount)) net) ∧
    sumVals (shs.foldl (fun n s => objAdd n s.userId (-s.amount)) net) =
      (sumVals net).map (fun x => x - (shs.map ExpenseShare.amount).sum) := by
  induction shs generalizing net with
  | nil =>
    refine ⟨hok, ?_⟩
    rw [List.foldl_nil, List.map_nil, List.sum_nil]
    cases sumVals net <;> simp
  | cons s rest ih =>
    rw [List.foldl_cons]
    obtain ⟨hm, hc⟩ := hsh s (List.mem_cons_self s rest)
    obtain ⟨hok2, hsum2⟩ := step_add hok hm (isCent_neg hc)
    obtain ⟨hok3, hsum3⟩ := ih hok2 (fun q hq => hsh q (List.mem_cons_of_mem _ hq))
    refine ⟨hok3, ?_⟩
    rw [hsum3, hsum2, List.map_cons, List.sum_cons]
    cases sumVals net with
    | none => rfl
    | some x =>
      show some (x + -s.amount - (rest.map ExpenseShare.amount).sum) =
        some (x - (s.amount + (rest.map ExpenseShare.amount).sum))
      rw [Option.some_inj]
      ring

theorem applyExpense_ok {g : Group} {net : Net} {e : Expense}
    (hok : NetOk g net)
    (hpay : e.payerId ∈ memberIds g)
    (hsh : ∀ s ∈ e.shares, s.userId ∈ memberIds g ∧ isCent s.amount)
    (hce : isCent e.amount)
    (hsum : (e.shares.map ExpenseShare.amount).sum = e.amount) :
    NetOk g (applyExpense net e) ∧ sumVals (applyExpense net e) = sumVals net := by
  unfold applyExpense
  obtain ⟨hok2, hsum2⟩ := step_add hok hpay hce
  obtain ⟨hok3, hsum3⟩ := shares_fold_ok e.shares hok2 hsh
  refine ⟨hok3, ?_⟩
  rw [hsum3, hsum2, hsum]
  cases sumVals net with
  | none => rfl
  | some x =>
    show some (x + e.amount - e.amount) = some x
    rw [Option.some_inj]
    ring

theorem applySettlement_ok {g : Group} {net : Net} {s : Settlement}
    (hok : NetOk g net) (hf : s.fromUser ∈ memberIds g) (ht : s.toUser ∈ memberIds g)
    (hc : isCent s.amount) :
    NetOk g (applySettlement net s) ∧ sumVals (applySettlement net s) = sumVals net := by
  unfold applySettlement
  obtain ⟨hok2, hsum2⟩ := step_add hok hf hc
  obtain ⟨hok3, hsum3⟩ := step_add hok2 ht (isCent_neg hc)
  refine ⟨hok3, ?_⟩
  rw [hsum3, hsum2]
  cases sumVals net with
  | none => rfl
  | some x =>
    show some (x + s.amount + -s.amount) = some x
    rw [Option.some_inj]
    ring

theorem expenses_fold_ok {g : Group} (es : List Expense) {net : Net}
    (hok : NetOk g net)
    (h : ∀ e ∈ es,
      (e.payerId ∈ memberIds g ∧ ∀ s ∈ e.shares, s.userId ∈ memberIds g ∧ isCent s.amount) ∧
      isCent e.amount ∧ (e.shares.map ExpenseShare.amount).sum = e.amount) :
    NetOk g (es.foldl applyExpense net) ∧ sumVals (es.foldl applyExpense net) = sumVals net := by
  induction es generalizing net with
  | nil => exact ⟨hok, rfl⟩
  | cons e rest ih =>
    rw [List.foldl_cons]
    obtain ⟨⟨hpay, hsh⟩, hce, hsum⟩ := h e (List.mem_cons_self e rest)
    obtain ⟨hok2, hsum2⟩ := applyExpense_ok hok hpay hsh hce hsum
    obtain ⟨hok3, hsum3⟩ := ih hok2 (fun q hq => h q (List.mem_cons_of_mem _ hq))
    exact ⟨hok3, hsum3.trans hsum2⟩

theorem settlements_fold_ok {g : Group} (ss : List Settlement) {net : Net}
    (hok : NetOk g net)
    (h : ∀ s ∈ ss, (s.fromUser ∈ memberIds g ∧ s.toUser ∈ memberIds g) ∧ isCent s.amount) :
    NetOk g (ss.foldl applySettlement net) ∧
    sumVals (ss.foldl applySettlement net) = sumVals net := by
  induction ss generalizing net with
  | nil => exact ⟨hok, rfl⟩
  | cons s rest ih =>
    rw [List.foldl_cons]
    obtain ⟨⟨hf, ht⟩, hc⟩ := h s (List.mem_cons_self s rest)
    obtain ⟨hok2, hsum2⟩ := applySettlement_ok hok hf ht hc
    obtain ⟨hok3, hsum3⟩ := ih hok2 (fun q hq => h q (List.mem_cons_of_mem _ hq))
    exact ⟨hok3, hsum3.trans hsum2⟩

theorem mem_filter_group {α : Type} (f : α → String) (gid : String) {l : List α} {x : α}
    (hx : x ∈ l.filter (fun y => decide (f y = gid))) : x ∈ l ∧ f x = gid := by
  have h := List.mem_filter.mp hx
  exact ⟨h.1, of_decide_eq_true h.2⟩

theorem preNet_ok {g : Group} {es : List Expense} {ss : List Settlement}
    (hrefs : ValidRefs g es ss) (hshare : SharesOk g es) (hcent : CentAmts g es ss) :
    NetOk g (preNet g es ss) ∧ sumVals (preNet g es ss) = some 0 := by
  obtain ⟨hok0, hsum0⟩ := initNet_ok g
  have hes : ∀ e ∈ es.filter (fun e => decide (e.groupId = g.id)),
      (e.payerId ∈ memberIds g ∧ ∀ s ∈ e.shares, s.userId ∈ memberIds g ∧ isCent s.amount) ∧
      isCent e.amount ∧ (e.shares.map ExpenseShare.amount).sum = e.amount := by
    intro e he
    obtain ⟨hmem, hgid⟩ := mem_filter_group Expense.groupId g.id he
    obtain ⟨hpay, hsh⟩ := hrefs.1 e hmem hgid
    obtain ⟨hce, hcs⟩ := hcent.1 e hmem hgid
    exact ⟨⟨hpay, fun s hs => ⟨hsh s hs, hcs s hs⟩⟩, hce, hshare e hmem hgid⟩
  have hss : ∀ s ∈ ss.filter (fun s => decide (s.groupId = g.id)),
      (s.fromUser ∈ memberIds g ∧ s.toUser ∈ memberIds g) ∧ isCent s.amount := by
    intro s hs
    obtain ⟨hmem, hgid⟩ := mem_filter_group Settlement.groupId g.id hs
    exact ⟨hrefs.2 s hmem hgid, hcent.2 s hmem hgid⟩
  obtain ⟨hok1, hsum1⟩ := expenses_fold_ok (es.filter (fun e => decide (e.groupId = g.id)))
    hok0 hes
  obtain ⟨hok2, hsum2⟩ := settlements_fold_ok (ss.filter (fun s => decide (s.groupId = g.id)))
    hok1 hss
  exact ⟨hok2, by unfold preNet; rw [hsum2, hsum1, hsum0]⟩

theorem roundNet_allCent {net : Net} (h : AllCentSome net) : roundNet net = net := by
  unfold roundNet
  induction net with
  | nil => rfl
  | cons p ps ih =>
    rw [List.map_cons, ih (fun q hq => h q (List.mem_cons_of_mem _ hq))]
    obtain ⟨v, hv, hc⟩ := h p (List.mem_cons_self p ps)
    have h2 : p.2.map roundCents = p.2 := by
      rw [hv]
      show some (roundCents v) = some v
      rw [roundCents_eq_self hc]
    rw [h2]

/-- Under valid references, exact share sums and whole-cent amounts, `computeNetByUser`
performs no rounding, its keys are exactly the member ids, and its values sum to `0`. -/
theorem computeNet_ok {g : Group} {es : List Expense} {ss : List Settlement}
    (hrefs : ValidRefs g es ss) (hshare : SharesOk g es) (hcent : CentAmts g es ss) :
    computeNetByUser g es ss = preNet g es ss ∧
    NetOk g (computeNetByUser g es ss) ∧ sumVals (computeNetByUser g es ss) = some 0 := by
  obtain ⟨hok, hsum⟩ := preNet_ok hrefs hshare hcent
  have heq : computeNetByUser g es ss = preNet g es ss := roundNet_allCent hok.2.2
  exact ⟨heq, heq ▸ hok, heq ▸ hsum⟩

theorem nodup_keys_foldl {α : Type} (step : Net → α → Net)
    (hstep : ∀ net x, (net.map Prod.fst).Nodup → ((step net x).map Prod.fst).Nodup)
    (l : List α) :
    ∀ net : Net, (net.map Prod.fst).Nodup → ((l.foldl step net).map Prod.fst).Nodup := by
  induction l with
  | nil => exact fun net h => h
  | cons x xs ih =>
    intro net h
    rw [List.foldl_cons]
    exact ih _ (hstep net x h)

/-- Every non-NaN value produced by `computeNetByUser` is a whole number of cents. -/
theorem computeNet_vals_cent (g : Group) (es : List Expense) (ss : List Settlement) :
    ∀ p ∈ computeNetByUser g es ss, ∀ v, p.2 = some v → isCent v := by
  unfold computeNetByUser roundNet
  intro p hp v hv
  rcases List.mem_map.mp hp with ⟨q, _, rfl⟩
  dsimp only at hv
  cases hq2 : q.2 with
  | none => rw [hq2] at hv; simp at hv
  | some w =>
    rw [hq2] at hv
    have : roundCents w = v := by
      have := hv
      simpa using this
    rw [← this]
    exact roundCents_isCent w

theorem settleLoop_nil_left (n : ℕ) (cs : List (String × ℚ)) : settleLoop n [] cs = [] := by
  cases n <;> rfl

theorem settleLoop_nil_right (n : ℕ) (ds : List (String × ℚ)) : settleLoop n ds [] = [] := by
  cases n with
  | zero => rfl
  | succ n => cases ds <;> rfl

theorem settleLoop_cons (fuel : ℕ) (d c : String × ℚ) (ds cs : List (String × ℚ)) :
    settleLoop (fuel + 1) (d :: ds) (c :: cs) =
      ⟨d.1, c.1, roundCents (min d.2 c.2)⟩ ::
        settleLoop fuel
          (if d.2 - min d.2 c.2 < 1/100 then ds else (d.1, d.2 - min d.2 c.2) :: ds)
          (if c.2 - min d.2 c.2 < 1/100 then cs else (c.1, c.2 - min d.2 c.2) :: cs) := rfl

theorem settleLoopDescribed_nil_left (n : ℕ) (cs : List (String × ℚ)) :
    settleLoopDescribed n [] cs = [] := by
  cases n <;> rfl

theorem settleLoopDescribed_nil_right (n : ℕ) (ds : List (String × ℚ)) :
    settleLoopDescribed n ds [] = [] := by
  cases n with
  | zero => rfl
  | succ n => cases ds <;> rfl

theorem settleLoopDescribed_cons (fuel : ℕ) (d c : String × ℚ) (ds cs : List (String × ℚ)) :
    settleLoopDescribed (fuel + 1) (d :: ds) (c :: cs) =
      ⟨d.1, c.1, roundCents (min d.2 c.2)⟩ ::
        settleLoopDescribed fuel
          (if d.2 - roundCents (min d.2 c.2) < 1/100 then ds
            else (d.1, d.2 - roundCents (min d.2 c.2)) :: ds)
          (if c.2 - roundCents (min d.2 c.2) < 1/100 then cs
            else (c.1, c.2 - roundCents (min d.2 c.2)) :: cs) := rfl

/-- In every iteration at least one of the two parties is fully paid off
(its remainder is `0 < 0.01`), because the payment is the exact minimum. -/
theorem min_step (a b : ℚ) : a - min a b < 1/100 ∨ b - min a b < 1/100 := by
  rcases le_total a b with h | h
  · left
    rw [min_eq_left h, sub_self]
    norm_num
  · right
    rw [min_eq_right h, sub_self]
    norm_num

/-- Any fuel of at least `debtors + creditors` computes the same transfer list. -/
theorem settleLoop_fuel (n : ℕ) :
    ∀ (m : ℕ) (ds cs : List (String × ℚ)), ds.length + cs.length ≤ m → m ≤ n →
      settleLoop n ds cs = settleLoop m ds cs := by
  induction n with
  | zero =>
    intro m ds cs _ hm
    rw [Nat.le_zero.mp hm]
  | succ n ih =>
    intro m ds cs hlen hm
    cases ds with
    | nil => rw [settleLoop_nil_left, settleLoop_nil_left]
    | cons d ds =>
      cases cs with
      | nil => rw [settleLoop_nil_right, settleLoop_nil_right]
      | cons c cs =>
        rw [List.length_cons, List.length_cons] at hlen
        obtain ⟨m2, rfl⟩ : ∃ m2, m = m2 + 1 := ⟨m - 1, by omega⟩
        rw [settleLoop_cons, settleLoop_cons]
        congr 1
        have hm2n : m2 ≤ n := by omega
        by_cases h1 : d.2 - min d.2 c.2 < 1/100 <;> by_cases h2 : c.2 - min d.2 c.2 < 1/100
        · rw [if_pos h1, if_pos h2]
          exact ih m2 _ _ (by omega) hm2n
        · rw [if_pos h1, if_neg h2]
          exact ih m2 _ _ (by simp only [List.length_cons]; omega) hm2n
        · rw [if_neg h1, if_pos h2]
          exact ih m2 _ _ (by simp only [List.length_cons]; omega) hm2n
        · exfalso
          rcases min_step d.2 c.2 with h | h
          · exact h1 h
          · exact h2 h

/-- The loop performs at most `debtors + creditors` iterations. -/
theorem settleLoop_length (n : ℕ) :
    ∀ ds cs : List (String × ℚ), (settleLoop n ds cs).length ≤ ds.length + cs.length := by
  induction n with
  | zero =>
    intro ds cs
    rw [show settleLoop 0 ds cs = [] from rfl]
    simp
  | succ n ih =>
    intro ds cs
    cases ds with
    | nil =>
      rw [settleLoop_nil_left]
      simp
    | cons d ds =>
      cases cs with
      | nil =>
        rw [settleLoop_nil_right]
        simp
      | cons c cs =>
        rw [settleLoop_cons, List.length_cons]
        rcases min_step d.2 c.2 with h | h
        · rw [if_pos h]
          by_cases h2 : c.2 - min d.2 c.2 < 1/100
          · rw [if_pos h2]
            have := ih ds cs
            simp only [List.length_cons]
            omega
          · rw [if_neg h2]
            have := ih ds ((c.1, c.2 - min d.2 c.2) :: cs)
            simp only [List.length_cons] at *
            omega
        · rw [if_pos h]
          by_cases h1 : d.2 - min d.2 c.2 < 1/100
          · rw [if_pos h1]
            have := ih ds cs
            simp only [List.length_cons]
            omega
          · rw [if_neg h1]
            have := ih ((d.1, d.2 - min d.2 c.2) :: ds) cs
            simp only [List.length_cons] at *
            omega

/-- On cent-valued inputs the source loop and the described loop coincide. -/
theorem settleLoop_eq_described (n : ℕ) :
    ∀ ds cs : List (String × ℚ), (∀ p ∈ ds, isCent p.2) → (∀ p ∈ cs, isCent p.2) →
      settleLoop n ds cs = settleLoopDescribed n ds cs := by
  induction n with
  | zero => intro ds cs _ _; rfl
  | succ n ih =>
    intro ds cs hd hc
    cases ds with
    | nil => rw [settleLoop_nil_left, settleLoopDescribed_nil_left]
    | cons d ds =>
      cases cs with
      | nil => rw [settleLoop_nil_right, settleLoopDescribed_nil_right]
      | cons c cs =>
        have hdc := hd d (List.mem_cons_self d ds)
        have hcc := hc c (List.mem_cons_self c cs)
        have hround : roundCents (min d.2 c.2) = min d.2 c.2 :=
          roundCents_eq_self (isCent_min hdc hcc)
        rw [settleLoop_cons, settleLoopDescribed_cons, hround]
        congr 1
        have hd2 : ∀ p ∈ ds, isCent p.2 := fun p hp => hd p (List.mem_cons_of_mem _ hp)
        have hc2 : ∀ p ∈ cs, isCent p.2 := fun p hp => hc p (List.mem_cons_of_mem _ hp)
        have hdcent : isCent (d.2 - min d.2 c.2) := isCent_sub hdc (isCent_min hdc hcc)
        have hccent : isCent (c.2 - min d.2 c.2) := isCent_sub hcc (isCent_min hdc hcc)
        refine ih _ _ ?_ ?_
        · by_cases h1 : d.2 - min d.2 c.2 < 1/100
          · rw [if_pos h1]
            exact hd2
          · rw [if_neg h1]
            intro p hp
            rcases List.mem_cons.mp hp with rfl | hp
            · exact hdcent
            · exact hd2 p hp
        · by_cases h2 : c.2 - min d.2 c.2 < 1/100
          · rw [if_pos h2]
            exact hc2
          · rw [if_neg h2]
            intro p hp
            rcases List.mem_cons.mp hp with rfl | hp
            · exact hccent
            · exact hc2 p hp

theorem amtFor_nil (id : String) : amtFor id [] = 0 := rfl

theorem dParts_entries {net : Net} (hcent : ∀ p ∈ net, ∀ v, p.2 = some v → isCent v) :
    ∀ p ∈ dParts net, isCent p.2 ∧ 1/100 ≤ p.2 := by
  intro p hp
  unfold dParts at hp
  rcases List.mem_filterMap.mp hp with ⟨q, hq, hqe⟩
  cases hq2 : q.2 with
  | none => rw [hq2] at hqe; simp at hqe
  | some v =>
    rw [hq2] at hqe
    dsimp only at hqe
    by_cases hv : v < -(9/1000)
    · rw [if_pos hv] at hqe
      have hcv := hcent q hq v hq2
      obtain rfl : (q.1, -v) = p := Option.some_injective _ hqe
      refine ⟨isCent_neg hcv, ?_⟩
      have := isCent_le_of_lt_neg hcv hv
      dsimp only
      linarith
    · rw [if_neg hv] at hqe
      simp at hqe

theorem cParts_entries {net : Net} (hcent : ∀ p ∈ net, ∀ v, p.2 = some v → isCent v) :
    ∀ p ∈ cParts net, isCent p.2 ∧ 1/100 ≤ p.2 := by
  intro p hp
  unfold cParts at hp
  rcases List.mem_filterMap.mp hp with ⟨q, hq, hqe⟩
  cases hq2 : q.2 with
  | none => rw [hq2] at hqe; simp at hqe
  | some v =>
    rw [hq2] at hqe
    dsimp only at hqe
    by_cases hv : (9/1000) < v
    · rw [if_pos hv] at hqe
      have hcv := hcent q hq v hq2
      obtain rfl : (q.1, v) = p := Option.some_injective _ hqe
      refine ⟨hcv, ?_⟩
      have := isCent_ge_of_gt hcv hv
      dsimp only
      linarith
    · rw [if_neg hv] at hqe
      simp at hqe

theorem snd_sum_perm {α : Type} {l l2 : List (α × ℚ)} (h : l.Perm l2) :
    (l.map Prod.snd).sum = (l2.map Prod.snd).sum :=
  List.Perm.sum_eq (List.Perm.map _ h)

theorem sortByAmtDesc_perm (l : List (String × ℚ)) : (sortByAmtDesc l).Perm l :=
  List.perm_insertionSort _ l

theorem getVal_roundNet (net : Net) (k : String) :
    getVal (roundNet net) k = (getVal net k).map (Option.map roundCents) := by
  induction net with
  | nil => rfl
  | cons p ps ih =>
    show getVal ((p.1, p.2.map roundCents) :: roundNet ps) k = _
    rw [getVal_cons, getVal_cons]
    by_cases h : p.1 = k
    · rw [if_pos h, if_pos h]
      rfl
    · rw [if_neg h, if_neg h]
      exact ih

theorem mem_objSet_cases {p : String × Option ℚ} {net : Net} {k : String} {v : Option ℚ}
    (hp : p ∈ objSet net k v) : p = (k, v) ∨ (p ∈ net ∧ p.1 ≠ k) := by
  unfold objSet at hp
  by_cases hk : k ∈ net.map Prod.fst
  · rw [if_pos hk] at hp
    rcases List.mem_map.mp hp with ⟨q, hq, rfl⟩
    by_cases hqk : q.1 = k
    · rw [if_pos hqk]
      exact Or.inl (by rw [hqk])
    · rw [if_neg hqk]
      exact Or.inr ⟨hq, hqk⟩
  · rw [if_neg hk] at hp
    rcases List.mem_append.mp hp with h | h
    · exact Or.inr ⟨h, fun hc => hk (List.mem_map.mpr ⟨p, h, hc⟩)⟩
    · exact Or.inl (List.mem_singleton.mp h)

theorem sim_objAdd_known {ids : List String} {netR netC : Net} {k : String} (a : ℚ)
    (hsim : SimRel ids netR netC) (hk : k ∈ ids) :
    SimRel ids (objAdd netR k a) (objAdd netC k a) := by
  obtain ⟨h1, h2⟩ := hsim
  constructor
  · intro id hid
    by_cases hidk : id = k
    · subst hidk
      rw [getVal_objAdd_self, getVal_objAdd_self, h1 id hid]
    · rw [getVal_objAdd_ne _ _ hidk, getVal_objAdd_ne _ _ hidk]
      exact h1 id hid
  · intro p hp hpid
    unfold objAdd at hp
    rcases mem_objSet_cases hp with rfl | ⟨hpn, _⟩
    · exact absurd hk hpid
    · exact h2 p hpn hpid

theorem sim_objAdd_unknown {ids : List String} {netR netC : Net} {k : String} (a : ℚ)
    (hsim : SimRel ids netR netC) (hk : k ∉ ids) :
    SimRel ids (objAdd netR k a) netC := by
  obtain ⟨h1, h2⟩ := hsim
  constructor
  · intro id hid
    rw [getVal_objAdd_ne _ _ (show id ≠ k from fun hc => hk (hc ▸ hid))]
    exact h1 id hid
  · intro p hp hpid
    unfold objAdd at hp
    rcases mem_objSet_cases hp with rfl | ⟨hpn, _⟩
    · show jsAdd (getVal netR k) a = none
      cases hg : getVal netR k with
      | none => rfl
      | some o =>
        have ho : o = none := h2 (k, o) (getVal_mem hg) hk
        rw [ho]
        rfl
    · exact h2 p hpn hpid

theorem sim_shares {ids : List String} (shs : List ExpenseShare) :
    ∀ {netR netC : Net}, SimRel ids netR netC →
      SimRel ids (shs.foldl (fun n s => objAdd n s.userId (-s.amount)) netR)
        ((shs.filter (fun s => decide (s.userId ∈ ids))).foldl
          (fun n s => objAdd n s.userId (-s.amount)) netC) := by
  induction shs with
  | nil => exact fun h => h
  | cons s rest ih =>
    intro netR netC h
    rw [List.foldl_cons]
    by_cases hs : s.userId ∈ ids
    · rw [List.filter_cons_of_pos (by simp [hs]), List.foldl_cons]
      exact ih (sim_objAdd_known _ h hs)
    · rw [List.filter_cons_of_neg (by simp [hs])]
      exact ih (sim_objAdd_unknown _ h hs)

theorem sim_applyExpense {ids : List String} {netR netC : Net} (e : Expense)
    (h : SimRel ids netR netC) :
    SimRel ids (applyExpense netR e) (applyExpenseChecked ids netC e) := by
  unfold applyExpense applyExpenseChecked
  by_cases hp : e.payerId ∈ ids
  · rw [if_pos hp]
    exact sim_shares e.shares (sim_objAdd_known _ h hp)
  · rw [if_neg hp]
    exact sim_shares e.shares (sim_objAdd_unknown _ h hp)

theorem sim_applySettlement {ids : List String} {netR netC : Net} (s : Settlement)
    (h : SimRel ids netR netC) :
    SimRel ids (applySettlement netR s) (applySettlementChecked ids netC s) := by
  unfold applySettlement applySettlementChecked
  by_cases hf : s.fromUser ∈ ids <;> by_cases ht : s.toUser ∈ ids
  · rw [if_pos ht, if_pos hf]
    exact sim_objAdd_known _ (sim_objAdd_known _ h hf) ht
  · rw [if_neg ht, if_pos hf]
    exact sim_objAdd_unknown _ (sim_objAdd_known _ h hf) ht
  · rw [if_pos ht, if_neg hf]
    exact sim_objAdd_known _ (sim_objAdd_unknown _ h hf) ht
  · rw [if_neg ht, if_neg hf]
    exact sim_objAdd_unknown _ (sim_objAdd_unknown _ h hf) ht

theorem sim_expense_fold {ids : List String} (l : List Expense) :
    ∀ {netR netC : Net}, SimRel ids netR netC →
      SimRel ids (l.foldl applyExpense netR) (l.foldl (applyExpenseChecked ids) netC) := by
  induction l with
  | nil => exact fun h => h
  | cons e rest ih =>
    intro netR netC h
    rw [List.foldl_cons, List.foldl_cons]
    exact ih (sim_applyExpense e h)

theorem sim_settlement_fold {ids : List String} (l : List Settlement) :
    ∀ {netR netC : Net}, SimRel ids netR netC →
      SimRel ids (l.foldl applySettlement netR) (l.foldl (applySettlementChecked ids) netC) := by
  induction l with
  | nil => exact fun h => h
  | cons s rest ih =>
    intro netR netC h
    rw [List.foldl_cons, List.foldl_cons]
    exact ih (sim_applySettlement s h)

theorem sim_roundNet {ids : List String} {netR netC : Net} (h : SimRel ids netR netC) :
    SimRel ids (roundNet netR) (roundNet netC) := by
  obtain ⟨h1, h2⟩ := h
  constructor
  · intro id hid
    rw [getVal_roundNet, getVal_roundNet, h1 id hid]
  · intro p hp hpid
    unfold roundNet at hp
    rcases List.mem_map.mp hp with ⟨q, hq, rfl⟩
    dsimp only at hpid ⊢
    rw [h2 q hq hpid]
    rfl

theorem sim_init (g : Group) : SimRel (memberIds g) (initNet g) (initNet g) := by
  constructor
  · intro id _
    rfl
  · intro p hp hpid
    exfalso
    have hin : p.1 ∈ (initNet g).map Prod.fst := List.mem_map.mpr ⟨p, hp, rfl⟩
    rw [(initNet_ok g).1.2.1 p.1] at hin
    exact hpid hin

theorem sim_computeNet (g : Group) (es : List Expense) (ss : List Settlement) :
    SimRel (memberIds g) (computeNetByUser g es ss) (computeNetByUserChecked g es ss) := by
  unfold computeNetByUser preNet computeNetByUserChecked
  exact sim_roundNet (sim_settlement_fold _ (sim_expense_fold _ (sim_init g)))

/-! ### Claim theorems -/

/-- C6: `computeNetByUser` credits each matching expense's payer by the full amount,
debits each share's member, credits each settlement's source and debits its
destination, then rounds to cents; in particular for members A and B with one
expense of 100 paid by A split 50/50 the result is `{A: +50, B: −50}`, and after
additionally recording a settlement of 50 from B to A the result is `{A: 0, B: 0}`. -/
theorem c6_scenarios :
    computeNetByUser gAB [eSplit] [] = [("A", some 50), ("B", some (-50))] ∧
    computeNetByUser gAB [eSplit] [sRepay] = [("A", some 0), ("B", some 0)] := by
  constructor <;>
    norm_num +decide [computeNetByUser, preNet, initNet, applyExpense, applySettlement,
      roundNet, objAdd, objSet, getVal, jsAdd, roundCents, jsRound, memberIds, gAB, eSplit,
      sRepay, List.foldl, List.filter]

/-- C4 counterexample: a settlement from the unknown identifier "X" to member A
does leave an entry for "X" in the returned mapping (with NaN value), refuting
the claim that the mapping contains entries only for the group's members. -/
theorem c4_counterexample :
    getVal (computeNetByUser gAB [] [sUnknown]) "X" = some none := by
  norm_num +decide [computeNetByUser, preNet, initNet, applyExpense, applySettlement,
    roundNet, objAdd, objSet, getVal, jsAdd, roundCents, jsRound, memberIds, gAB, sUnknown,
    List.foldl, List.filter]

/-- C4 (amended): a record referencing a member identifier absent from the group
leaves the group members' balances exactly as if the unknown-member operation were
removed (`computeNetByUserChecked`), but the returned mapping additionally contains
a NaN (`none`) entry for each unknown identifier it touches, rather than no entry. -/
theorem c4_amended (g : Group) (es : List Expense) (ss : List Settlement) :
    (∀ m ∈ g.members, getVal (computeNetByUser g es ss) m.id =
      getVal (computeNetByUserChecked g es ss) m.id) ∧
    (∀ p ∈ computeNetByUser g es ss, p.1 ∉ memberIds g → p.2 = none) := by
  obtain ⟨h1, h2⟩ := sim_computeNet g es ss
  exact ⟨fun m hm => h1 m.id (List.mem_map.mpr ⟨m, hm, rfl⟩), h2⟩

/-- C4 witness: the amended claim at the concrete unknown-reference input. -/
theorem c4_witness :
    getVal (computeNetByUser gAB [] [sUnknown]) "A" =
      getVal (computeNetByUserChecked gAB [] [sUnknown]) "A" :=
  (c4_amended gAB [] [sUnknown]).1 ⟨"A", "Alice"⟩ (by decide)

/-- C7: `suggestSettlements` computes exactly the algorithm the claim describes
(partition at ±0.009, stable descending sort by amount, greedy matching with the
cent-rounded minimum as transfer amount, advancing past parties whose remainder
drops below 0.01), and when every member's net balance is zero it returns `[]`. -/
theorem c7_algorithm :
    (∀ (g : Group) (es : List Expense) (ss : List Settlement),
      suggestSettlements g es ss = suggestSettlementsDescribed g es ss) ∧
    (∀ (g : Group) (es : List Expense) (ss : List Settlement),
      (∀ p ∈ computeNetByUser g es ss, p.2 = some 0) → suggestSettlements g es ss = []) := by
  constructor
  · intro g es ss
    unfold suggestSettlements suggestSettlementsDescribed
    refine settleLoop_eq_described _ _ _ ?_ ?_
    · intro p hp
      have hmem := (sortByAmtDesc_perm (debtorsOf g es ss)).mem_iff.mp hp
      exact (dParts_entries (computeNet_vals_cent g es ss) p hmem).1
    · intro p hp
      have hmem := (sortByAmtDesc_perm (creditorsOf g es ss)).mem_iff.mp hp
      exact (cParts_entries (computeNet_vals_cent g es ss) p hmem).1
  · intro g es ss hz
    unfold suggestSettlements
    have hd : debtorsOf g es ss = [] := by
      unfold debtorsOf dParts
      rw [List.filterMap_eq_nil_iff]
      intro p hp
      rw [hz p hp]
      dsimp only
      rw [if_neg (by norm_num)]
    rw [hd, show sortByAmtDesc [] = [] from rfl]
    exact settleLoop_nil_left _ _

/-- C7 witness: a group with an all-zero net (no records) yields no transfers. -/
theorem c7_witness : suggestSettlements gAB [] [] = [] :=
  c7_algorithm.2 gAB [] [] (by
    norm_num +decide [computeNetByUser, preNet, initNet, applyExpense, applySettlement,
      roundNet, objAdd, objSet, getVal, jsAdd, roundCents, jsRound, memberIds, gAB,
      List.foldl, List.filter])

/-- C9: the matching loop of `suggestSettlements` terminates within
`debtors + creditors` iterations: any extra fuel beyond that bound computes the
same transfer list, and the output never has more transfers than that bound. -/
theorem c9_termination :
    (∀ (ds cs : List (String × ℚ)) (extra : ℕ),
      settleLoop (ds.length + cs.length + extra) ds cs =
        settleLoop (ds.length + cs.length) ds cs) ∧
    (∀ (g : Group) (es : List Expense) (ss : List Settlement),
      (suggestSettlements g es ss).length ≤
        (debtorsOf g es ss).length + (creditorsOf g es ss).length) := by
  constructor
  · intro ds cs extra
    exact settleLoop_fuel _ _ ds cs le_rfl (Nat.le_add_right _ _)
  · intro g es ss
    have h := settleLoop_length
      ((sortByAmtDesc (debtorsOf g es ss)).length + (sortByAmtDesc (creditorsOf g es ss)).length)
      (sortByAmtDesc (debtorsOf g es ss)) (sortByAmtDesc (creditorsOf g es ss))
    have hd := (sortByAmtDesc_perm (debtorsOf g es ss)).length_eq
    have hc := (sortByAmtDesc_perm (creditorsOf g es ss)).length_eq
    unfold suggestSettlements
    omega

/-- C2 counterexample: the zero-sum property fails for arbitrary inputs — an
expense whose shares do not sum to its amount gives value sum 70; an expense paid
by an unknown member makes the sum NaN; half-cent amounts round to a sum of 0.01;
none of these is within the claimed 1e-6 of zero. -/
theorem c2_counterexample :
    sumVals (computeNetByUser gAB [eBadShare] []) = some 70 ∧
    sumVals (computeNetByUser gAB [eUnknownPayer] []) = none ∧
    sumVals (computeNetByUser gAB [eHalfCent] []) = some (1/100) ∧
    ¬ (|(70 : ℚ)| ≤ 1/1000000) ∧ ¬ (|(1/100 : ℚ)| ≤ 1/1000000) := by
  refine ⟨?_, ?_, ?_, by rw [abs_of_pos (by norm_num)]; norm_num,
    by rw [abs_of_pos (by norm_num)]; norm_num⟩ <;>
    norm_num +decide [computeNetByUser, preNet, initNet, applyExpense, applySettlement,
      roundNet, objAdd, objSet, getVal, jsAdd, sumVals, roundCents, jsRound, memberIds, gAB,
      eBadShare, eUnknownPayer, eHalfCent, List.foldl, List.filter]

/-- C2 (amended): when every matching record references only group members, each
matching expense's shares sum to its amount, and all amounts are whole cents, the
values returned by `computeNetByUser` sum to exactly 0 (hence within 1e-6). -/
theorem c2_amended (g : Group) (es : List Expense) (ss : List Settlement)
    (hrefs : ValidRefs g es ss) (hshare : SharesOk g es) (hcent : CentAmts g es ss) :
    sumVals (computeNetByUser g es ss) = some 0 :=
  (computeNet_ok hrefs hshare hcent).2.2

/-- C2 witness: the amended claim at the 50/50 scenario. -/
theorem c2_witness : sumVals (computeNetByUser gAB [eSplit] [sRepay]) = some 0 :=
  c2_amended gAB [eSplit] [sRepay]
    (by norm_num +decide [ValidRefs, memberIds, gAB, eSplit, sRepay])
    (by norm_num +decide [SharesOk, gAB, eSplit])
    (by norm_num +decide [CentAmts, isCent, gAB, eSplit, sRepay])

theorem withIdx_length {α : Type} (n : ℕ) (l : List α) : (withIdx n l).length = l.length := by
  induction l generalizing n with
  | nil => rfl
  | cons x xs ih =>
    show (withIdx n (x :: xs)).length = xs.length + 1
    rw [withIdx, List.length_cons, ih]

theorem withIdx_map_snd {α : Type} (n : ℕ) (l : List α) : (withIdx n l).map Prod.snd = l := by
  induction l generalizing n with
  | nil => rfl
  | cons x xs ih =>
    rw [withIdx, List.map_cons, ih]

theorem withIdx_map_fst {α : Type} (n : ℕ) (l : List α) :
    (withIdx n l).map Prod.fst = List.range' n l.length := by
  induction l generalizing n with
  | nil => rfl
  | cons x xs ih =>
    rw [withIdx, List.map_cons, ih, List.length_cons]
    rfl

theorem withIdx_fst_nodup {α : Type} (n : ℕ) (l : List α) :
    ((withIdx n l).map Prod.fst).Nodup := by
  rw [withIdx_map_fst]
  apply List.nodup_range'
  norm_num

theorem withIdx_mem {α : Type} {p : ℕ × α} :
    ∀ {n : ℕ} {l : List α}, p ∈ withIdx n l →
      n ≤ p.1 ∧ p.1 < n + l.length ∧ l.get? (p.1 - n) = some p.2 := by
  intro n l
  induction l generalizing n with
  | nil => intro h; simp [withIdx] at h
  | cons x xs ih =>
    intro h
    rw [withIdx, List.mem_cons] at h
    rcases h with rfl | h
    · exact ⟨le_rfl, by rw [List.length_cons]; omega, by rw [Nat.sub_self]; rfl⟩
    · obtain ⟨h1, h2, h3⟩ := ih h
      refine ⟨by omega, by rw [List.length_cons]; omega, ?_⟩
      have hp : p.1 - n = (p.1 - (n + 1)) + 1 := by omega
      rw [hp]
      exact h3

theorem withIdx_get? {α : Type} (l : List α) :
    ∀ (n i : ℕ), (withIdx n l).get? i = (l.get? i).map (fun x => (n + i, x)) := by
  induction l with
  | nil => intro n i; cases i <;> rfl
  | cons x xs ih =>
    intro n i
    cases i with
    | zero => rw [withIdx]; simp
    | succ j =>
      rw [withIdx]
      show (withIdx (n + 1) xs).get? j = _
      rw [ih (n + 1) j]
      show _ = (xs.get? j).map (fun x => (n + (j + 1), x))
      have : n + 1 + j = n + (j + 1) := by omega
      rw [this]

theorem get?_eq_getD {α : Type} [Inhabited α] {l : List α} {i : ℕ} (h : i < l.length)
    (d : α) : l.get? i = some (l.getD i d) := by
  induction l generalizing i with
  | nil => simp at h
  | cons x xs ih =>
    cases i with
    | zero => rfl
    | succ j =>
      rw [List.length_cons] at h
      exact ih (by omega)

theorem castSum : ∀ b : List ℤ, ((b.sum : ℤ) : ℚ) = (b.map (Int.cast : ℤ → ℚ)).sum := by
  intro b
  induction b with
  | nil => rfl
  | cons z zs ih =>
    rw [List.sum_cons, List.map_cons, List.sum_cons, ← ih]
    push_cast
    ring

theorem set_sum_incr : ∀ (b : List ℤ) (i : ℕ), i < b.length →
    (b.set i (b.getD i 0 + 1)).sum = b.sum + 1 := by
  intro b
  induction b with
  | nil => intro i h; simp at h
  | cons x xs ih =>
    intro i h
    cases i with
    | zero =>
      rw [List.set_cons_zero, List.sum_cons, List.sum_cons]
      show x + 1 + xs.sum = x + xs.sum + 1
      ring
    | succ j =>
      rw [List.length_cons] at h
      rw [List.set_cons_succ, List.sum_cons, List.sum_cons]
      show x + (xs.set j (xs.getD j 0 + 1)).sum = x + xs.sum + 1
      rw [ih j (by omega)]
      ring

theorem get?_set_incr : ∀ (b : List ℤ) (i j : ℕ),
    (b.set i (b.getD i 0 + 1)).get? j =
      if j = i then (b.get? j).map (fun z => z + 1) else b.get? j := by
  intro b
  induction b with
  | nil =>
    intro i j
    rw [List.set_nil]
    by_cases h : j = i <;> simp [h]
  | cons x xs ih =>
    intro i j
    cases i with
    | zero =>
      rw [List.set_cons_zero]
      cases j with
      | zero => rfl
      | succ k => rw [if_neg (by omega)]; rfl
    | succ i2 =>
      rw [List.set_cons_succ]
      cases j with
      | zero => rw [if_neg (by omega)]; rfl
      | succ k =>
        show (xs.set i2 (xs.getD i2 0 + 1)).get? k = _
        rw [ih i2 k]
        by_cases h : k = i2
        · rw [if_pos h, if_pos (by omega)]
          rfl
        · rw [if_neg h, if_neg (by omega)]
          rfl

theorem distribute_length : ∀ (l : List (ℕ × ℚ)) (r : ℤ) (b : List ℤ),
    (distribute l r b).length = b.length := by
  intro l
  induction l with
  | nil => intro r b; rfl
  | cons p rest ih =>
    intro r b
    rw [distribute]
    by_cases h : 0 < r
    · rw [if_pos h, ih, List.length_set]
    · rw [if_neg h]

theorem distribute_nonpos {l : List (ℕ × ℚ)} {r : ℤ} {b : List ℤ} (h : ¬ 0 < r) :
    distribute l r b = b := by
  cases l with
  | nil => rfl
  | cons p rest => rw [distribute, if_neg h]

theorem distribute_sum : ∀ (l : List (ℕ × ℚ)) (r : ℤ) (b : List ℤ), 0 ≤ r →
    r ≤ l.length → (∀ p ∈ l, p.1 < b.length) → (distribute l r b).sum = b.sum + r := by
  intro l
  induction l with
  | nil =>
    intro r b h0 hlen _
    have : r = 0 := by
      rw [List.length_nil] at hlen
      omega
    rw [this]
    show b.sum = b.sum + 0
    ring
  | cons p rest ih =>
    intro r b h0 hlen hmem
    rw [distribute]
    by_cases h : 0 < r
    · rw [if_pos h]
      rw [ih (r - 1) _ (by omega) (by rw [List.length_cons] at hlen; omega) ?_]
      · rw [set_sum_incr b p.1 (hmem p (List.mem_cons_self p rest))]
        ring
      · intro q hq
        rw [List.length_set]
        exact hmem q (List.mem_cons_of_mem _ hq)
    · rw [if_neg h]
      have : r = 0 := by omega
      rw [this]
      show b.sum = b.sum + 0
      ring

theorem distribute_get? : ∀ (l : List (ℕ × ℚ)) (r : ℤ) (b : List ℤ),
    (l.map Prod.fst).Nodup → ∀ j,
      (distribute l r b).get? j =
        if j ∈ (l.take r.toNat).map Prod.fst then (b.get? j).map (fun z => z + 1)
        else b.get? j := by
  intro l
  induction l with
  | nil =>
    intro r b _ j
    rw [List.take_nil, List.map_nil, if_neg (List.not_mem_nil j)]
    rfl
  | cons p rest ih =>
    intro r b hnd j
    rw [List.map_cons, List.nodup_cons] at hnd
    rw [distribute]
    by_cases h : 0 < r
    · rw [if_pos h]
      rw [ih (r - 1) _ hnd.2 j]
      have htake : r.toNat = (r - 1).toNat + 1 := by omega
      rw [htake, List.take_succ_cons, List.map_cons]
      by_cases hj : j = p.1
      · have hnotin : j ∉ (rest.take (r - 1).toNat).map Prod.fst := by
          intro hc
          rw [hj] at hc
          exact hnd.1 (List.map_subset Prod.fst (List.take_subset _ _) hc)
        rw [if_neg hnotin, if_pos (List.mem_cons.mpr (Or.inl hj)), get?_set_incr b p.1 j,
          if_pos hj]
      · rw [get?_set_incr b p.1 j, if_neg hj]
        by_cases hj2 : j ∈ (rest.take (r - 1).toNat).map Prod.fst
        · rw [if_pos hj2, if_pos (List.mem_cons.mpr (Or.inr hj2))]
        · rw [if_neg hj2, if_neg (fun hc => by
            rcases List.mem_cons.mp hc with hc | hc
            exacts [hj hc, hj2 hc])]
    · rw [if_neg h]
      have : r.toNat = 0 := by omega
      rw [this, List.take_zero, List.map_nil, if_neg (List.not_mem_nil j)]

theorem getD_of_get? {α : Type} [Inhabited α] :
    ∀ {l : List α} {i : ℕ} {x d : α}, l.get? i = some x → l.getD i d = x := by
  intro l
  induction l with
  | nil => intro i x d h; simp at h
  | cons y ys ih =>
    intro i x d h
    cases i with
    | zero => exact Option.some_injective _ h
    | succ j => exact ih h

theorem rawShares_length (ws : List ℚ) (C : ℤ) : (rawShares ws C).length = ws.length :=
  List.length_map _ _

theorem rawShares_get? (ws : List ℚ) (C : ℤ) (i : ℕ) :
    (rawShares ws C).get? i = (ws.get? i).map (fun w => (C : ℚ) * w / ws.sum) :=
  List.get?_map _ _ _

theorem rawShares_sum {ws : List ℚ} (C : ℤ) (h : ws.sum ≠ 0) :
    (rawShares ws C).sum = (C : ℚ) := by
  unfold rawShares
  have h1 : ∀ w ∈ ws, (C : ℚ) * w / ws.sum = ((C : ℚ) / ws.sum) * w :=
    fun w _ => by ring
  rw [List.map_congr_left h1]
  have h2 : ∀ (l : List ℚ) (a : ℚ), (l.map (fun w => a * w)).sum = a * l.sum := by
    intro l a
    induction l with
    | nil => simp
    | cons x xs ih =>
      rw [List.map_cons, List.sum_cons, List.sum_cons, ih]
      ring
  rw [h2]
  field_simp

theorem fracList_snd_sum (raw : List ℚ) : ∀ n : ℕ,
    (((withIdx n raw).map (fun p : ℕ × ℚ => (p.1, p.2 - (⌊p.2⌋ : ℚ)))).map Prod.snd).sum =
      raw.sum - (((raw.map (fun v => ⌊v⌋)).sum : ℤ) : ℚ) := by
  induction raw with
  | nil =>
    intro n
    rw [withIdx]
    simp
  | cons x xs ih =>
    intro n
    rw [withIdx]
    simp only [List.map_cons, List.sum_cons]
    rw [ih (n + 1)]
    push_cast
    ring

theorem fracList_bounds (raw : List ℚ) (n : ℕ) :
    ∀ p ∈ (withIdx n raw).map (fun p : ℕ × ℚ => (p.1, p.2 - (⌊p.2⌋ : ℚ))), 0 ≤ p.2 ∧ p.2 < 1 := by
  intro p hp
  rcases List.mem_map.mp hp with ⟨q, _, rfl⟩
  dsimp only
  constructor
  · have := Int.floor_le q.2
    linarith
  · have := Int.lt_floor_add_one q.2
    linarith

theorem fracList_mem (raw : List ℚ) (n : ℕ) {p : ℕ × ℚ}
    (hp : p ∈ (withIdx n raw).map (fun p : ℕ × ℚ => (p.1, p.2 - (⌊p.2⌋ : ℚ)))) :
    ∃ v, raw.get? (p.1 - n) = some v ∧ p.2 = v - ⌊v⌋ := by
  rcases List.mem_map.mp hp with ⟨q, hq, rfl⟩
  obtain ⟨_, _, h3⟩ := withIdx_mem hq
  exact ⟨q.2, h3, rfl⟩

theorem fracList_fst_nodup (raw : List ℚ) (n : ℕ) :
    (((withIdx n raw).map (fun p : ℕ × ℚ => (p.1, p.2 - (⌊p.2⌋ : ℚ)))).map Prod.fst).Nodup := by
  rw [List.map_map]
  have h : (Prod.fst ∘ fun p : ℕ × ℚ => (p.1, p.2 - (⌊p.2⌋ : ℚ))) = Prod.fst := rfl
  rw [h]
  exact withIdx_fst_nodup n raw

theorem fracList_fst_bound (raw : List ℚ) {p : ℕ × ℚ}
    (hp : p ∈ (withIdx 0 raw).map (fun p : ℕ × ℚ => (p.1, p.2 - (⌊p.2⌋ : ℚ)))) : p.1 < raw.length := by
  rcases List.mem_map.mp hp with ⟨q, hq, rfl⟩
  obtain ⟨_, h2, _⟩ := withIdx_mem hq
  dsimp only
  omega

theorem qsum_lt_countP (l : List (ℕ × ℚ)) (h : ∀ p ∈ l, 0 ≤ p.2 ∧ p.2 < 1) :
    (l.map Prod.snd).sum < (l.countP (fun p => decide (0 < p.2)) : ℚ) ∨
      (l.map Prod.snd).sum ≤ 0 := by
  induction l with
  | nil =>
    right
    simp
  | cons p rest ih =>
    obtain ⟨h0, h1⟩ := h p (List.mem_cons_self p rest)
    have ihr := ih (fun q hq => h q (List.mem_cons_of_mem _ hq))
    have hc0 : (0 : ℚ) ≤ (rest.countP (fun p => decide (0 < p.2)) : ℚ) := Nat.cast_nonneg _
    rw [List.map_cons, List.sum_cons]
    by_cases hp : 0 < p.2
    · left
      rw [List.countP_cons_of_pos _ _ (by simpa using hp)]
      push_cast
      rcases ihr with h2 | h2 <;> linarith
    · have hz : p.2 = 0 := le_antisymm (not_lt.mp hp) h0
      rw [List.countP_cons_of_neg _ _ (by simpa using hp), hz, zero_add]
      exact ihr

theorem sorted_take_pos {l : List (ℕ × ℚ)} (hs : List.Pairwise (fun a b => b.2 ≤ a.2) l)
    {k : ℕ} (hk : k < l.countP (fun p => decide (0 < p.2))) :
    ∀ p ∈ l.take k, 0 < p.2 := by
  intro p hp
  by_contra hc
  push_neg at hc
  have hsplit : l = l.take k ++ l.drop k := (List.take_append_drop k l).symm
  have hpw := hs
  rw [hsplit, List.pairwise_append] at hpw
  have hdrop : ∀ q ∈ l.drop k, ¬ (0 < q.2) := by
    intro q hq hq2
    have := hpw.2.2 p hp q hq
    linarith
  have hcount : l.countP (fun p => decide (0 < p.2)) =
      (l.take k).countP (fun p => decide (0 < p.2)) +
      (l.drop k).countP (fun p => decide (0 < p.2)) := by
    conv_lhs => rw [hsplit]
    exact List.countP_append _ _ _
  have hdz : (l.drop k).countP (fun p => decide (0 < p.2)) = 0 :=
    List.countP_eq_zero.mpr (fun q hq => by simpa using hdrop q hq)
  have htk : (l.take k).countP (fun p => decide (0 < p.2)) ≤ k := by
    refine le_trans (List.countP_le_length _) ?_
    rw [List.length_take]
    omega
  omega

theorem allocPairs_pos (mids : List String) (ws : List ℚ) (t : ℚ)
    (h1 : ¬ ws.sum ≤ 0) (h2 : jsRound (t * 100) ≠ 0) :
    allocPairs mids ws t = (withIdx 0 mids).map (fun p => (p.2,
      ((distribute (fracIdxOf (rawShares ws (jsRound (t * 100))))
          (jsRound (t * 100) - ((rawShares ws (jsRound (t * 100))).map (fun v => ⌊v⌋)).sum)
          ((rawShares ws (jsRound (t * 100))).map (fun v => ⌊v⌋))).get? p.1).map
        (fun b => (b : ℚ) / 100))) := by
  simp only [allocPairs]
  rw [if_neg (not_or.mpr ⟨h1, h2⟩)]

theorem allocPairs_zero (mids : List String) (ws : List ℚ) (t : ℚ)
    (h : ws.sum ≤ 0 ∨ jsRound (t * 100) = 0) :
    allocPairs mids ws t = mids.map (fun id => (id, some 0)) := by
  simp only [allocPairs]
  rw [if_pos h]

/-- Main-path characterisation of the allocation arithmetic: the final cent list
has the weights' length, sums to the rounded cent total, and each entry is the
floor of its ideal fractional share, or that floor plus one and then only when
the fractional part is non-zero. -/
theorem alloc_main (mids : List String) (ws : List ℚ) (t : ℚ) (hS : 0 < ws.sum)
    (hC : jsRound (t * 100) ≠ 0) :
    ∃ base2 : List ℤ,
      allocPairs mids ws t = (withIdx 0 mids).map
        (fun p => (p.2, (base2.get? p.1).map (fun b => (b : ℚ) / 100))) ∧
      base2.length = ws.length ∧
      base2.sum = jsRound (t * 100) ∧
      (∀ i, i < ws.length →
        base2.getD i 0 = ⌊(jsRound (t * 100) : ℚ) * ws.getD i 0 / ws.sum⌋ ∨
        (base2.getD i 0 = ⌊(jsRound (t * 100) : ℚ) * ws.getD i 0 / ws.sum⌋ + 1 ∧
          ((⌊(jsRound (t * 100) : ℚ) * ws.getD i 0 / ws.sum⌋ : ℤ) : ℚ) <
            (jsRound (t * 100) : ℚ) * ws.getD i 0 / ws.sum)) := by
  have hfl_perm : (fracIdxOf (rawShares ws (jsRound (t * 100)))).Perm
      ((withIdx 0 (rawShares ws (jsRound (t * 100)))).map (fun p : ℕ × ℚ => (p.1, p.2 - (⌊p.2⌋ : ℚ)))) :=
    List.perm_insertionSort _ _
  have hfl_pw : List.Pairwise (fun a b : ℕ × ℚ => b.2 ≤ a.2)
      (fracIdxOf (rawShares ws (jsRound (t * 100)))) :=
    List.sorted_insertionSort _ _
  have hsum_raw : (rawShares ws (jsRound (t * 100))).sum = (jsRound (t * 100) : ℚ) :=
    rawShares_sum _ (ne_of_gt hS)
  have hbounds : ∀ p ∈ fracIdxOf (rawShares ws (jsRound (t * 100))), 0 ≤ p.2 ∧ p.2 < 1 :=
    fun p hp => fracList_bounds _ 0 p (hfl_perm.mem_iff.mp hp)
  have hsortlen : (fracIdxOf (rawShares ws (jsRound (t * 100)))).length = ws.length := by
    rw [hfl_perm.length_eq, List.length_map, withIdx_length, rawShares_length]
  have hremq : ((jsRound (t * 100) -
        ((rawShares ws (jsRound (t * 100))).map (fun v => ⌊v⌋)).sum : ℤ) : ℚ) =
      ((fracIdxOf (rawShares ws (jsRound (t * 100)))).map Prod.snd).sum := by
    rw [snd_sum_perm hfl_perm, fracList_snd_sum _ 0, hsum_raw]
    push_cast
    ring
  have hrem0 : 0 ≤ jsRound (t * 100) -
      ((rawShares ws (jsRound (t * 100))).map (fun v => ⌊v⌋)).sum := by
    have hnn : (0 : ℚ) ≤ ((fracIdxOf (rawShares ws (jsRound (t * 100)))).map Prod.snd).sum := by
      refine List.sum_nonneg ?_
      intro x hx
      rcases List.mem_map.mp hx with ⟨q, hq, rfl⟩
      exact (hbounds q hq).1
    rw [← hremq] at hnn
    exact_mod_cast hnn
  have hcnt := qsum_lt_countP _ hbounds
  have hremlen : jsRound (t * 100) -
      ((rawShares ws (jsRound (t * 100))).map (fun v => ⌊v⌋)).sum ≤ (ws.length : ℤ) := by
    rcases hcnt with h2 | h2
    · rw [← hremq] at h2
      have hcle : ((fracIdxOf (rawShares ws (jsRound (t * 100)))).countP
            (fun p => decide (0 < p.2)) : ℤ) ≤ (ws.length : ℤ) := by
        have := List.countP_le_length (l := fracIdxOf (rawShares ws (jsRound (t * 100))))
          (p := fun p => decide (0 < p.2))
        rw [hsortlen] at this
        exact_mod_cast this
      have hlt : (jsRound (t * 100) -
          ((rawShares ws (jsRound (t * 100))).map (fun v => ⌊v⌋)).sum : ℤ) <
          ((fracIdxOf (rawShares ws (jsRound (t * 100)))).countP
            (fun p => decide (0 < p.2)) : ℤ) := by
        exact_mod_cast h2
      omega
    · rw [← hremq] at h2
      have : jsRound (t * 100) -
          ((rawShares ws (jsRound (t * 100))).map (fun v => ⌊v⌋)).sum ≤ 0 := by
        exact_mod_cast h2
      omega
  have hidx : ∀ p ∈ fracIdxOf (rawShares ws (jsRound (t * 100))),
      p.1 < ((rawShares ws (jsRound (t * 100))).map (fun v => ⌊v⌋)).length := by
    intro p hp
    rw [List.length_map]
    exact fracList_fst_bound _ (hfl_perm.mem_iff.mp hp)
  have hndf : ((fracIdxOf (rawShares ws (jsRound (t * 100)))).map Prod.fst).Nodup := by
    refine ((hfl_perm.map Prod.fst).nodup_iff).mpr ?_
    exact fracList_fst_nodup _ 0
  refine ⟨distribute (fracIdxOf (rawShares ws (jsRound (t * 100))))
    (jsRound (t * 100) - ((rawShares ws (jsRound (t * 100))).map (fun v => ⌊v⌋)).sum)
    ((rawShares ws (jsRound (t * 100))).map (fun v => ⌊v⌋)), ?_, ?_, ?_, ?_⟩
  · exact allocPairs_pos mids ws t (not_le.mpr hS) hC
  · rw [distribute_length, List.length_map, rawShares_length]
  · rw [distribute_sum _ _ _ hrem0 (by rw [hsortlen]; exact hremlen) hidx]
    ring
  · intro i hi
    have hwget : ws.get? i = some (ws.getD i 0) := get?_eq_getD hi 0
    have hrawget : (rawShares ws (jsRound (t * 100))).get? i =
        some ((jsRound (t * 100) : ℚ) * ws.getD i 0 / ws.sum) := by
      rw [rawShares_get?, hwget]
      rfl
    have hbaseget : ((rawShares ws (jsRound (t * 100))).map (fun v => ⌊v⌋)).get? i =
        some ⌊(jsRound (t * 100) : ℚ) * ws.getD i 0 / ws.sum⌋ := by
      rw [List.get?_map, hrawget]
      rfl
    have hget := distribute_get? (fracIdxOf (rawShares ws (jsRound (t * 100))))
      (jsRound (t * 100) - ((rawShares ws (jsRound (t * 100))).map (fun v => ⌊v⌋)).sum)
      ((rawShares ws (jsRound (t * 100))).map (fun v => ⌊v⌋)) hndf i
    by_cases hmem : i ∈ ((fracIdxOf (rawShares ws (jsRound (t * 100)))).take
        (jsRound (t * 100) -
          ((rawShares ws (jsRound (t * 100))).map (fun v => ⌊v⌋)).sum).toNat).map Prod.fst
    · rw [if_pos hmem, hbaseget] at hget
      right
      constructor
      · exact getD_of_get? hget
      · rcases List.mem_map.mp hmem with ⟨p, hpt, hpi⟩
        have hrpos : 0 < jsRound (t * 100) -
            ((rawShares ws (jsRound (t * 100))).map (fun v => ⌊v⌋)).sum := by
          by_contra hrneg
          push_neg at hrneg
          have : (jsRound (t * 100) -
              ((rawShares ws (jsRound (t * 100))).map (fun v => ⌊v⌋)).sum).toNat = 0 := by
            omega
          rw [this, List.take_zero] at hpt
          exact absurd hpt (List.not_mem_nil p)
        have hK : (jsRound (t * 100) -
            ((rawShares ws (jsRound (t * 100))).map (fun v => ⌊v⌋)).sum).toNat <
            (fracIdxOf (rawShares ws (jsRound (t * 100)))).countP
              (fun p => decide (0 < p.2)) := by
          rcases hcnt with h2 | h2
          · rw [← hremq] at h2
            have : (jsRound (t * 100) -
                ((rawShares ws (jsRound (t * 100))).map (fun v => ⌊v⌋)).sum : ℤ) <
                ((fracIdxOf (rawShares ws (jsRound (t * 100)))).countP
                  (fun p => decide (0 < p.2)) : ℤ) := by
              exact_mod_cast h2
            omega
          · rw [← hremq] at h2
            have : (jsRound (t * 100) -
                ((rawShares ws (jsRound (t * 100))).map (fun v => ⌊v⌋)).sum : ℤ) ≤ 0 := by
              exact_mod_cast h2
            omega
        have hppos : 0 < p.2 := sorted_take_pos hfl_pw hK p hpt
        have hpin : p ∈ fracIdxOf (rawShares ws (jsRound (t * 100))) :=
          List.take_subset _ _ hpt
        obtain ⟨v, hvget, hveq⟩ := fracList_mem _ 0 (hfl_perm.mem_iff.mp hpin)
        rw [Nat.sub_zero, hpi, hrawget] at hvget
        have hveq2 : v = (jsRound (t * 100) : ℚ) * ws.getD i 0 / ws.sum :=
          Option.some_injective _ hvget.symm
        rw [hveq2] at hveq
        rw [hveq] at hppos
        linarith
    · rw [if_neg hmem, hbaseget] at hget
      left
      exact getD_of_get? hget

theorem foldl_objSet_fresh : ∀ (l : List (String × Option ℚ)) (acc : Net),
    (acc.map Prod.fst ++ l.map Prod.fst).Nodup →
    l.foldl (fun net p => objSet net p.1 p.2) acc = acc ++ l := by
  intro l
  induction l with
  | nil =>
    intro acc _
    rw [List.foldl_nil, List.append_nil]
  | cons p rest ih =>
    intro acc hnd
    rw [List.map_cons] at hnd
    have hdisj := (List.nodup_append.mp hnd).2.2
    have hp : p.1 ∉ acc.map Prod.fst := by
      intro hc
      exact hdisj hc (List.mem_cons_self _ _)
    rw [List.foldl_cons]
    have hset : objSet acc p.1 p.2 = acc ++ [p] := by
      unfold objSet
      rw [if_neg hp]
    rw [hset, ih (acc ++ [p]) ?_]
    · rw [List.append_assoc, List.singleton_append]
    · rw [List.map_append]
      have h2 : (acc.map Prod.fst ++ [p].map Prod.fst) ++ rest.map Prod.fst =
          acc.map Prod.fst ++ (p.1 :: rest.map Prod.fst) := by
        rw [List.append_assoc]
        rfl
      rw [h2]
      exact hnd

theorem objFromEntries_eq_self {l : List (String × Option ℚ)}
    (h : (l.map Prod.fst).Nodup) : objFromEntries l = l := by
  unfold objFromEntries
  rw [foldl_objSet_fresh l [] (by simpa using h), List.nil_append]

theorem getVal_foldl_objSet_last (k : String) : ∀ (l : List (String × Option ℚ)) (acc : Net),
    getVal (l.foldl (fun net p => objSet net p.1 p.2) acc) k =
      match (l.filter (fun p => decide (p.1 = k))).getLast? with
      | some q => some q.2
      | none => getVal acc k := by
  intro l
  induction l with
  | nil => intro acc; rfl
  | cons p rest ih =>
    intro acc
    rw [List.foldl_cons, ih (objSet acc p.1 p.2)]
    by_cases hp : p.1 = k
    · rw [List.filter_cons_of_pos (by simp [hp])]
      cases hfr : rest.filter (fun p => decide (p.1 = k)) with
      | nil =>
        show getVal (objSet acc p.1 p.2) k = _
        rw [getVal_objSet, if_pos hp.symm]
        rfl
      | cons q qs =>
        rw [List.getLast?_cons_cons]
        cases hq : (q :: qs).getLast? with
        | some r => rfl
        | none => simp at hq
    · rw [List.filter_cons_of_neg (by simp [hp])]
      cases (rest.filter (fun p => decide (p.1 = k))).getLast? with
      | some q => rfl
      | none =>
        show getVal (objSet acc p.1 p.2) k = getVal acc k
        rw [getVal_objSet, if_neg (fun hc => hp hc.symm)]

theorem getVal_objFromEntries_last (l : List (String × Option ℚ)) (k : String) :
    getVal (objFromEntries l) k =
      ((l.filter (fun p => decide (p.1 = k))).getLast?).map Prod.snd := by
  unfold objFromEntries
  rw [getVal_foldl_objSet_last]
  cases (l.filter (fun p => decide (p.1 = k))).getLast? with
  | some q => rfl
  | none => rfl

theorem nodup_keys_objFromEntries (l : List (String × Option ℚ)) :
    ((objFromEntries l).map Prod.fst).Nodup := by
  unfold objFromEntries
  exact nodup_keys_foldl (fun net p => objSet net p.1 p.2)
    (fun net p h => nodup_keys_objSet h p.1 p.2) l [] (by simp)

theorem mem_keys_objFromEntries (l : List (String × Option ℚ)) (k : String) :
    k ∈ (objFromEntries l).map Prod.fst ↔ k ∈ l.map Prod.fst := by
  have aux : ∀ (l2 : List (String × Option ℚ)) (acc : Net),
      k ∈ (l2.foldl (fun net p => objSet net p.1 p.2) acc).map Prod.fst ↔
        k ∈ acc.map Prod.fst ∨ k ∈ l2.map Prod.fst := by
    intro l2
    induction l2 with
    | nil =>
      intro acc
      simp
    | cons p rest ih =>
      intro acc
      rw [List.foldl_cons, ih, mem_keys_objSet, List.map_cons, List.mem_cons]
      tauto
  unfold objFromEntries
  rw [aux l []]
  simp

theorem objFromEntries_forall {P : Option ℚ → Prop} :
    ∀ (l : List (String × Option ℚ)) (acc : Net), (∀ p ∈ acc, P p.2) → (∀ p ∈ l, P p.2) →
      ∀ p ∈ l.foldl (fun net p => objSet net p.1 p.2) acc, P p.2 := by
  intro l
  induction l with
  | nil => exact fun acc ha _ => ha
  | cons q rest ih =>
    intro acc ha hl
    rw [List.foldl_cons]
    exact ih _ (forall_objSet ha (hl q (List.mem_cons_self _ _)) q.1)
      (fun r hr => hl r (List.mem_cons_of_mem _ hr))

theorem getVal_get?_nodup : ∀ {l : List (String × Option ℚ)} {i : ℕ} {p : String × Option ℚ},
    (l.map Prod.fst).Nodup → l.get? i = some p → getVal l p.1 = some p.2 := by
  intro l
  induction l with
  | nil => intro i p _ h; simp at h
  | cons q rest ih =>
    intro i p hnd hget
    rw [List.map_cons, List.nodup_cons] at hnd
    cases i with
    | zero =>
      obtain rfl : q = p := Option.some_injective _ hget
      rw [getVal_cons, if_pos rfl]
    | succ j =>
      have hmem : p ∈ rest := List.get?_mem hget
      have hne : q.1 ≠ p.1 := by
        intro hc
        exact hnd.1 (by rw [hc]; exact List.mem_map.mpr ⟨p, hmem, rfl⟩)
      rw [getVal_cons, if_neg hne]
      exact ih hnd.2 hget

theorem drop_step : ∀ (b : List ℤ) (n : ℕ) (z : ℤ), b.get? n = some z →
    b.drop n = z :: b.drop (n + 1) := by
  intro b
  induction b with
  | nil => intro n z h; simp at h
  | cons x xs ih =>
    intro n z h
    cases n with
    | zero =>
      obtain rfl : x = z := Option.some_injective _ h
      rfl
    | succ m => exact ih m z h

theorem sumVals_pairs : ∀ (mids : List String) (n : ℕ) (b : List ℤ), n + mids.length ≤ b.length →
    sumVals ((withIdx n mids).map (fun p => (p.2, (b.get? p.1).map (fun z => (z : ℚ) / 100)))) =
      some (((((b.drop n).take mids.length).map (Int.cast : ℤ → ℚ)).sum) / 100) := by
  intro mids
  induction mids with
  | nil =>
    intro n b _
    rw [withIdx]
    show some (0 : ℚ) = some (((((b.drop n).take 0).map (Int.cast : ℤ → ℚ)).sum) / 100)
    rw [List.take_zero, List.map_nil, List.sum_nil, zero_div]
  | cons m rest ih =>
    intro n b hlen
    rw [List.length_cons] at hlen
    rw [withIdx, List.map_cons]
    obtain ⟨z, hz⟩ : ∃ z, b.get? n = some z :=
      ⟨b.getD n 0, get?_eq_getD (by omega) 0⟩
    rw [sumVals_cons_some _ (show ((m, (b.get? n).map (fun z => (z : ℚ) / 100)) :
        String × Option ℚ).2 = some ((z : ℚ) / 100) by rw [hz]; rfl)]
    rw [ih (n + 1) b (by omega)]
    rw [List.length_cons, drop_step b n z hz, List.take_succ_cons, List.map_cons, List.sum_cons]
    rw [Option.map_some']
    rw [Option.some_inj]
    ring

theorem jsRound_cent {t : ℚ} (h : isCent t) : ((jsRound (t * 100) : ℤ) : ℚ) = t * 100 := by
  rw [isCent_iff] at h
  obtain ⟨z, rfl⟩ := h
  have h1 : (z : ℚ) / 100 * 100 = (z : ℚ) := by field_simp
  rw [h1, jsRound_intCast]

theorem allocPairs_map_fst (mids : List String) (ws : List ℚ) (t : ℚ) :
    (allocPairs mids ws t).map Prod.fst = mids := by
  by_cases h : ws.sum ≤ 0 ∨ jsRound (t * 100) = 0
  · rw [allocPairs_zero mids ws t h, List.map_map]
    have h1 : (Prod.fst ∘ fun id : String => ((id, some 0) : String × Option ℚ)) = id := rfl
    rw [h1, List.map_id]
  · push_neg at h
    rw [allocPairs_pos mids ws t (not_le.mpr h.1) h.2]
    rw [List.map_map]
    exact withIdx_map_snd 0 mids

theorem alloc_eq_pairs (mids : List String) (ws : List ℚ) (t : ℚ) (hnodup : mids.Nodup) :
    allocateProportional mids ws t = allocPairs mids ws t := by
  unfold allocateProportional
  exact objFromEntries_eq_self (by rw [allocPairs_map_fst]; exact hnodup)

theorem alloc_vals_cent (mids : List String) (ws : List ℚ) (t : ℚ)
    (hlen : ws.length = mids.length) :
    ∀ p ∈ allocateProportional mids ws t, ∃ z : ℤ, p.2 = some ((z : ℚ) / 100) := by
  have hpairs : ∀ p ∈ allocPairs mids ws t, ∃ z : ℤ, p.2 = some ((z : ℚ) / 100) := by
    by_cases h : ws.sum ≤ 0 ∨ jsRound (t * 100) = 0
    · rw [allocPairs_zero mids ws t h]
      intro p hp
      rcases List.mem_map.mp hp with ⟨id, -, rfl⟩
      exact ⟨0, by norm_num⟩
    · push_neg at h
      obtain ⟨base2, heq, hblen, -, -⟩ := alloc_main mids ws t h.1 h.2
      rw [heq]
      intro p hp
      rcases List.mem_map.mp hp with ⟨q, hq, rfl⟩
      obtain ⟨-, hlt, -⟩ := withIdx_mem hq
      have hqlt : q.1 < base2.length := by
        rw [hblen, hlen]
        simpa using hlt
      refine ⟨base2.getD q.1 0, ?_⟩
      show (base2.get? q.1).map (fun b => (b : ℚ) / 100) = _
      rw [get?_eq_getD hqlt 0]
      rfl
  show ∀ p ∈ (allocPairs mids ws t).foldl (fun net p => objSet net p.1 p.2) [],
    ∃ z : ℤ, p.2 = some ((z : ℚ) / 100)
  exact objFromEntries_forall (P := fun v => ∃ z : ℤ, v = some ((z : ℚ) / 100))
    (allocPairs mids ws t) [] (fun p hp => absurd hp (List.not_mem_nil p)) hpairs

theorem alloc_sum (mids : List String) (ws : List ℚ) (t : ℚ)
    (hlen : ws.length = mids.length) (hnodup : mids.Nodup) (hcent : isCent t)
    (hS : 0 < ws.sum) :
    sumVals (allocateProportional mids ws t) = some t := by
  rw [alloc_eq_pairs mids ws t hnodup]
  by_cases hC : jsRound (t * 100) = 0
  · have ht : t = 0 := by
      have h1 := jsRound_cent hcent
      rw [hC] at h1
      have h2 : t * 100 = 0 := by
        rw [← h1]
        norm_num
      linarith
    rw [allocPairs_zero mids ws t (Or.inr hC), ht]
    exact sumVals_zeros (fun p hp => by
      rcases List.mem_map.mp hp with ⟨id, -, rfl⟩
      rfl)
  · obtain ⟨base2, heq, hblen, hbsum, -⟩ := alloc_main mids ws t hS hC
    rw [heq, sumVals_pairs mids 0 base2 (by rw [hblen, hlen]; omega)]
    rw [List.drop_zero]
    have htake : base2.take mids.length = base2 := by
      rw [← hlen, ← hblen]
      exact List.take_length base2
    rw [htake, ← castSum, hbsum, jsRound_cent hcent]
    rw [Option.some_inj]
    field_simp

/-- C1, amended: when the weight list is parallel to the member list, the
member ids are distinct and the total is a whole number of cents, every value
`allocateProportional` returns is a whole number of cents, and — provided the
weight sum is positive, so the all-zero fallback is not taken — the values sum
exactly to the total. The original claim's inclusion of zero/negative weight
sums and of the empty member list is refuted by `c1_counterexample`. -/
theorem c1_amended (mids : List String) (ws : List ℚ) (t : ℚ)
    (hlen : ws.length = mids.length) (hnodup : mids.Nodup) (hcent : isCent t) :
    (∀ p ∈ allocateProportional mids ws t, ∃ v, p.2 = some v ∧ isCent v) ∧
    (0 < ws.sum → sumVals (allocateProportional mids ws t) = some t) := by
  constructor
  · intro p hp
    obtain ⟨z, hz⟩ := alloc_vals_cent mids ws t hlen p hp
    refine ⟨(z : ℚ) / 100, hz, isCent_iff.mpr ⟨z, rfl⟩⟩
  · exact fun hS => alloc_sum mids ws t hlen hnodup hcent hS

/-- C1, counterexample: with weight sum zero the fallback allocates `0` to
everybody, and with an empty member list nothing is allocated, so in both
cases the outputs sum to `0`, not to the total `1`. -/
theorem c1_counterexample :
    sumVals (allocateProportional ["a"] [0] 1) = some 0 ∧
    sumVals (allocateProportional ([] : List String) [] 1) = some 0 ∧
    (0 : ℚ) ≠ 1 := by
  refine ⟨?_, ?_, by norm_num⟩
  · norm_num +decide [allocateProportional, allocPairs, objFromEntries, objSet, getVal,
      sumVals, jsRound, List.sum_cons, List.sum_nil, List.foldl_cons, List.foldl_nil]
  · norm_num +decide [allocateProportional, allocPairs, objFromEntries, objSet, getVal,
      sumVals, jsRound, List.sum_cons, List.sum_nil, List.foldl_cons, List.foldl_nil]

theorem c1_witness :
    (∀ p ∈ allocateProportional ["a", "b", "c"] [1, 1, 1] 10, ∃ v, p.2 = some v ∧ isCent v) ∧
    (0 < ([1, 1, 1] : List ℚ).sum →
      sumVals (allocateProportional ["a", "b", "c"] [1, 1, 1] 10) = some 10) :=
  c1_amended ["a", "b", "c"] [1, 1, 1] 10 rfl (by decide) (by norm_num [isCent])

/-- C5, amended: with parallel lists, distinct member ids, positive weight sum
and a total that is a whole number of cents, each member's allocation differs
from the ideal proportional share by strictly less than one cent. Without the
whole-cent hypothesis the bound fails (`c5_counterexample`): rounding the
total to cents can move it by up to half a cent, and a member holding most of
the weight absorbs most of that shift, so when its fractional remainder also
loses the largest-remainder race its allocation lands more than a full cent
below its ideal share. -/
theorem c5_amended (mids : List String) (ws : List ℚ) (t : ℚ)
    (hlen : ws.length = mids.length) (hnodup : mids.Nodup) (hS : 0 < ws.sum)
    (hcent : isCent t) :
    ∀ i, i < mids.length → ∃ v : ℚ,
      getVal (allocateProportional mids ws t) (mids.getD i "") = some (some v) ∧
      |v - t * ws.getD i 0 / ws.sum| < 1/100 := by
  intro i hi
  rw [alloc_eq_pairs mids ws t hnodup]
  by_cases hC : jsRound (t * 100) = 0
  · have ht : t = 0 := by
      have h1 := jsRound_cent hcent
      rw [hC] at h1
      have h2 : t * 100 = 0 := by
        rw [← h1]
        norm_num
      linarith
    rw [allocPairs_zero mids ws t (Or.inr hC)]
    refine ⟨0, ?_, ?_⟩
    · apply getVal_get?_nodup (p := (mids.getD i "", some 0))
      · rw [List.map_map]
        have h1 : (Prod.fst ∘ fun id : String => ((id, some 0) : String × Option ℚ)) = id :=
          rfl
        rw [h1, List.map_id]
        exact hnodup
      · rw [List.get?_map, get?_eq_getD hi ""]
        rfl
    · rw [ht]
      norm_num
  · obtain ⟨base2, heq, hblen, -, hchar⟩ := alloc_main mids ws t hS hC
    rw [heq]
    have hiw : i < ws.length := by rw [hlen]; exact hi
    have hib : i < base2.length := by rw [hblen]; exact hiw
    refine ⟨(base2.getD i 0 : ℚ) / 100, ?_, ?_⟩
    · apply getVal_get?_nodup (p := (mids.getD i "", some ((base2.getD i 0 : ℚ) / 100)))
      · rw [List.map_map]
        have h1 : ((withIdx 0 mids).map (Prod.fst ∘ fun p : ℕ × String =>
            (p.2, (base2.get? p.1).map fun b => (b : ℚ) / 100))) = mids :=
          withIdx_map_snd 0 mids
        rw [h1]
        exact hnodup
      · rw [List.get?_map, withIdx_get?, get?_eq_getD hi "", Option.map_some',
          Option.map_some']
        rw [Option.some_inj]
        show (mids.getD i "", (base2.get? (0 + i)).map fun b => (b : ℚ) / 100) = _
        rw [Nat.zero_add, get?_eq_getD hib 0]
        rfl
    · have hr : (jsRound (t * 100) : ℚ) * ws.getD i 0 / ws.sum =
          100 * (t * ws.getD i 0 / ws.sum) := by
        rw [jsRound_cent hcent]
        ring
      obtain h | ⟨h, hfrac⟩ := hchar i hiw
      · rw [h, abs_lt]
        constructor <;>
          [nlinarith [Int.lt_floor_add_one ((jsRound (t * 100) : ℚ) * ws.getD i 0 / ws.sum), hr];
           nlinarith [Int.floor_le ((jsRound (t * 100) : ℚ) * ws.getD i 0 / ws.sum), hr]]
      · rw [h, abs_lt]
        push_cast
        constructor <;>
          [nlinarith [Int.lt_floor_add_one ((jsRound (t * 100) : ℚ) * ws.getD i 0 / ws.sum), hr];
           nlinarith [hfrac, hr]]

/-- C5, counterexample: for the dyadic total `363/1024 = 0.3544921875` (not a
whole cent) and the integer weights `56, 3, 5` (sum `64`, a power of two, so
every intermediate value — `100·t = 35.44921875`, the cent total `35`, the raw
shares `30.625, 1.640625, 2.734375` and their distinct fractional remainders
`0.625, 0.640625, 0.734375` — is an exact binary fraction and the computation
carries no rounding error and no sort tie), the two leftover cents go to the
third and second members, member "a" keeps its floor of `30` cents, and
`0.30` is `417/40960 ≈ 0.010181` below its ideal share `2541/8192 ≈ 0.310181`
— not strictly within one cent. -/
theorem c5_counterexample :
    getVal (allocateProportional ["a", "b", "c"] [56, 3, 5] (363/1024)) "a" =
      some (some (30/100)) ∧
    ¬ |(30 : ℚ)/100 - 363/1024 * 56 / ([56, 3, 5] : List ℚ).sum| < 1/100 := by
  constructor
  · norm_num +decide [allocateProportional, allocPairs, objFromEntries, objSet, getVal,
      rawShares, fracIdxOf, distribute, withIdx, jsRound, List.insertionSort,
      List.orderedInsert, List.sum_cons, List.sum_nil, List.foldl_cons, List.foldl_nil]
  · rw [show ([56, 3, 5] : List ℚ).sum = 64 by
      norm_num [List.sum_cons, List.sum_nil]]
    rw [show (30 : ℚ)/100 - 363/1024 * 56 / 64 = -(417/40960) by norm_num]
    rw [abs_of_neg (by norm_num)]
    norm_num

theorem c5_witness :
    ∃ v : ℚ, getVal (allocateProportional ["a", "b"] [1, 3] (4/100))
        (["a", "b"].getD 0 "") = some (some v) ∧
      |v - 4/100 * ([1, 3] : List ℚ).getD 0 0 / ([1, 3] : List ℚ).sum| < 1/100 :=
  c5_amended ["a", "b"] [1, 3] (4/100) rfl (by decide)
    (by norm_num [List.sum_cons, List.sum_nil]) (by norm_num [isCent]) 0 (by decide)

/-- C10: the output object of `allocateProportional` has exactly one entry per
distinct member id (its keys are the member ids without repetition), each key
holds the value of the last pair written for it — JS object assignment lets
the last occurrence of a duplicated id win — and consequently on the
duplicated input `["a", "a"]` with total `0.02` the returned values sum to
`0.01`, not to the total. -/
theorem c10_lastwins :
    (∀ (mids : List String) (ws : List ℚ) (t : ℚ),
      ((allocateProportional mids ws t).map Prod.fst).Nodup ∧
      (∀ k, k ∈ (allocateProportional mids ws t).map Prod.fst ↔ k ∈ mids) ∧
      (∀ k, getVal (allocateProportional mids ws t) k =
        (((allocPairs mids ws t).filter (fun p => decide (p.1 = k))).getLast?).map
          Prod.snd)) ∧
    sumVals (allocateProportional ["a", "a"] [1, 1] (2/100)) ≠ some (2/100) := by
  constructor
  · intro mids ws t
    refine ⟨nodup_keys_objFromEntries _, fun k => ?_, fun k =>
      getVal_objFromEntries_last (allocPairs mids ws t) k⟩
    exact (mem_keys_objFromEntries (allocPairs mids ws t) k).trans
      (by rw [allocPairs_map_fst])
  · have h1 : sumVals (allocateProportional ["a", "a"] [1, 1] (2/100)) = some (1/100) := by
      norm_num +decide [allocateProportional, allocPairs, objFromEntries, objSet, getVal,
        sumVals, rawShares, fracIdxOf, distribute, withIdx, jsRound, List.insertionSort,
        List.orderedInsert, List.sum_cons, List.sum_nil, List.foldl_cons, List.foldl_nil]
    rw [h1]
    intro hc
    rw [Option.some_inj] at hc
    norm_num at hc

end SplitKit
